/-
Verification of the BPTF (Bayesian Probabilistic Tensor Factorization)
implementation in src/imputer/BPTF.ipynb.

Shallow embedding conventions:
* numpy arrays are total functions over ℕ indices with explicit dimension
  parameters (a `Dims` record carries the tensor dimensions n1, n2, n3 and the
  latent rank r); float arithmetic is modelled exactly over ℚ.
* a possibly-NaN float array is a function into `Option ℚ` (`none` = NaN).
* external library calls that the notebook merely invokes are oracles passed
  in explicitly: `Ops` bundles the deterministic LAPACK-style routines
  (`numpy.linalg.inv`, `numpy.linalg.solve`, `scipy.linalg.cholesky`), and the
  random draws consumed by one Gibbs sweep are the fields of `IterRand`
  (`scipy.stats.wishart.rvs` and `numpy.random.gamma` as functions of the
  distribution parameters, and the standard-normal vectors drawn inside
  `mvnrnd_pre`, one per call site).  The back-substitution triangular solve
  (`scipy.linalg.solve_triangular`) is implemented concretely.
* in-place numpy mutation is modelled by explicit state passing: `BPTF`
  returns, besides the posterior-mean tensor, the final contents of the arrays
  the source mutates in place (U, V, X and the zero-filled sparse tensor).
-/
import Mathlib

set_option maxHeartbeats 1000000
set_option maxRecDepth 4000

abbrev RVec : Type := ℕ → ℚ
abbrev RMat : Type := ℕ → ℕ → ℚ
abbrev RTen : Type := ℕ → ℕ → ℕ → ℚ
abbrev NTen : Type := ℕ → ℕ → ℕ → Option ℚ
abbrev Pos3 : Type := ℕ × ℕ × ℕ

/-- Tensor dimensions (d1, d2, d3) together with the latent rank. -/
structure Dims where
  n1 : ℕ
  n2 : ℕ
  n3 : ℕ
  r : ℕ

/-- Identity matrix, `np.eye`. -/
def eyeR : RMat := fun a b => if a = b then 1 else 0

/-- Matrix transpose. -/
def transposeM (A : RMat) : RMat := fun a b => A b a

/-- Matrix product with explicit inner dimension K (`A @ B`). -/
def mulR (K : ℕ) (A B : RMat) : RMat := fun a b => ∑ k ∈ Finset.range K, A a k * B k b

/-- Matrix-vector product with explicit length K (`A @ v`). -/
def mulVecR (K : ℕ) (A : RMat) (v : RVec) : RVec := fun a => ∑ k ∈ Finset.range K, A a k * v k

/-- Writing one row of a matrix (`W[i, :] = v`). -/
def updRow (W : RMat) (i : ℕ) (v : RVec) : RMat := fun a b => if a = i then v b else W a b

/-- Fuel-indexed backward substitution for an upper-triangular system C y = z of
size r: row i is solved from the already-solved rows above index r.  The fuel
argument makes the recursion structural (row i needs fuel at least r - i). -/
def backSubF (C : RMat) (z : RVec) (r : ℕ) : ℕ → ℕ → ℚ
  | 0, _ => 0
  | fuel + 1, i =>
      if i < r then
        (z i - ∑ j ∈ Finset.Ico (i + 1) r, C i j * backSubF C z r fuel j) / C i i
      else 0

/-- Backward substitution solving the upper-triangular system C y = z
(`scipy.linalg.solve_triangular` with an upper-triangular matrix). -/
def backSub (r : ℕ) (C : RMat) (z : RVec) : RVec := fun i => backSubF C z r (r - i) i

/-- `mvnrnd_pre(mu, Lambda)`: one draw from the multivariate normal given the
precision matrix Lambda; `chol` is the upper-Cholesky oracle and z the standard
normal vector drawn inside the source function. -/
def mvnrnd_pre (chol : RMat → RMat) (r : ℕ) (mu : RVec) (Lambda : RMat) (z : RVec) : RVec :=
  fun i => backSub r (chol Lambda) z i + mu i

/-- `cov_mat(mat, mat_bar)` with n rows: (mat - mat_bar).T @ (mat - mat_bar). -/
def cov_mat (n : ℕ) (M : RMat) (Mbar : RVec) : RMat :=
  mulR n (transposeM (fun i s => M i s - Mbar s)) (fun i s => M i s - Mbar s)

/-- `np.mean(M, axis = 0)` over n rows. -/
def mean_rows (n : ℕ) (M : RMat) : RVec := fun s => (∑ i ∈ Finset.range n, M i s) / (n : ℚ)

/-- `scipy.linalg.khatri_rao(A, B)` where B has p rows: column-wise Kronecker
product, row m holds A (m / p) * B (m % p). -/
def kr_prod (p : ℕ) (A B : RMat) : RMat := fun m s => A (m / p) s * B (m % p) s

/-- `ten2mat(tensor, mode)`: mode-k unfolding with Fortran-order flattening of
the remaining axes, as produced by np.reshape(np.moveaxis ...) in the source. -/
def ten2mat (dm : Dims) (T : RTen) (mode : ℕ) : RMat :=
  if mode = 0 then fun i m => T i (m % dm.n2) (m / dm.n2)
  else if mode = 1 then fun j m => T (m % dm.n1) j (m / dm.n1)
  else fun k m => T (m % dm.n1) (m / dm.n1) k

/-- Deterministic numerical library routines used by the notebook. -/
structure Ops where
  minv : RMat → RMat
  lsolve : RMat → RVec → RVec
  chol : RMat → RMat

/-- Random draws consumed during one Gibbs sweep: one Wishart oracle per factor
sampler (a function of the degrees of freedom and the scale matrix), the
standard normal vectors for the hyper-mean draws and the per-row draws, and the
Gamma oracle for the noise precision (a function of shape and scale). -/
structure IterRand where
  wishU : ℕ → RMat → RMat
  wishV : ℕ → RMat → RMat
  wishX : ℕ → RMat → RMat
  zUh : RVec
  zVh : RVec
  zXh : RVec
  zU : ℕ → RVec
  zV : ℕ → RVec
  zX : ℕ → RVec
  gam : ℚ → ℚ → ℚ

/-- Normal-Wishart hyperparameter update shared by sample_factor_u and
sample_factor_v (their first five lines, which are textually identical up to
the factor matrix): returns (var_mu_hyper, var_Lambda_hyper) computed from the
n-row factor matrix F. -/
def factor_hyper (ops : Ops) (wish : ℕ → RMat → RMat) (zh : RVec) (n r : ℕ)
    (beta0 : ℚ) (F : RMat) : RVec × RMat :=
  let Fbar := mean_rows n F
  let temp : ℚ := (n : ℚ) / ((n : ℚ) + beta0)
  let lam := wish (n + r)
    (ops.minv (fun a b => eyeR a b + cov_mat n F Fbar a b + temp * beta0 * (Fbar a * Fbar b)))
  (mvnrnd_pre ops.chol r (fun s => temp * Fbar s)
      (fun a b => ((n : ℚ) + beta0) * lam a b) zh, lam)

/-- `var1 = kr_prod(X, V).T` in sample_factor_u. -/
def sfu_var1 (dm : Dims) (V X : RMat) : RMat := transposeM (kr_prod dm.n2 X V)

/-- Row i of `var3` in sample_factor_u: the reshaped normal-equation precision
contribution plus the hyper precision. -/
def sfu_var3 (dm : Dims) (tauInd : RTen) (V X : RMat) (lam : RMat) : ℕ → RMat :=
  fun i a b =>
    mulR (dm.n2 * dm.n3) (kr_prod dm.r (sfu_var1 dm V X) (sfu_var1 dm V X))
      (transposeM (ten2mat dm tauInd 0)) (a * dm.r + b) i + lam a b

/-- Column i of `var4` in sample_factor_u: the linear contribution plus
Lambda_hyper @ mu_hyper. -/
def sfu_var4 (dm : Dims) (tauSp : RTen) (V X : RMat) (lam : RMat) (mu : RVec) : ℕ → RVec :=
  fun i s =>
    mulR (dm.n2 * dm.n3) (sfu_var1 dm V X) (transposeM (ten2mat dm tauSp 0)) s i +
      mulVecR dm.r lam mu s

/-- `sample_factor_u(tau_sparse_tensor, tau_ind, U, V, X, beta0)`. -/
def sample_factor_u (ops : Ops) (wish : ℕ → RMat → RMat) (zh : RVec) (zr : ℕ → RVec)
    (dm : Dims) (tauSp tauInd : RTen) (U V X : RMat) (beta0 : ℚ) : RMat :=
  let h := factor_hyper ops wish zh dm.n1 dm.r beta0 U
  (List.range dm.n1).foldl
    (fun W i => updRow W i
      (mvnrnd_pre ops.chol dm.r
        (ops.lsolve (sfu_var3 dm tauInd V X h.2 i) (sfu_var4 dm tauSp V X h.2 h.1 i))
        (sfu_var3 dm tauInd V X h.2 i) (zr i))) U

/-- `var1 = kr_prod(X, U).T` in sample_factor_v. -/
def sfv_var1 (dm : Dims) (U X : RMat) : RMat := transposeM (kr_prod dm.n1 X U)

/-- Row j of `var3` in sample_factor_v. -/
def sfv_var3 (dm : Dims) (tauInd : RTen) (U X : RMat) (lam : RMat) : ℕ → RMat :=
  fun j a b =>
    mulR (dm.n1 * dm.n3) (kr_prod dm.r (sfv_var1 dm U X) (sfv_var1 dm U X))
      (transposeM (ten2mat dm tauInd 1)) (a * dm.r + b) j + lam a b

/-- Column j of `var4` in sample_factor_v. -/
def sfv_var4 (dm : Dims) (tauSp : RTen) (U X : RMat) (lam : RMat) (mu : RVec) : ℕ → RVec :=
  fun j s =>
    mulR (dm.n1 * dm.n3) (sfv_var1 dm U X) (transposeM (ten2mat dm tauSp 1)) s j +
      mulVecR dm.r lam mu s

/-- `sample_factor_v(tau_sparse_tensor, tau_ind, U, V, X, beta0)`. -/
def sample_factor_v (ops : Ops) (wish : ℕ → RMat → RMat) (zh : RVec) (zr : ℕ → RVec)
    (dm : Dims) (tauSp tauInd : RTen) (U V X : RMat) (beta0 : ℚ) : RMat :=
  let h := factor_hyper ops wish zh dm.n2 dm.r beta0 V
  (List.range dm.n2).foldl
    (fun W j => updRow W j
      (mvnrnd_pre ops.chol dm.r
        (ops.lsolve (sfv_var3 dm tauInd U X h.2 j) (sfv_var4 dm tauSp U X h.2 h.1 j))
        (sfv_var3 dm tauInd U X h.2 j) (zr j))) V

/-- Hyperparameter update of sample_factor_x: the chain-structured scale built
from first differences dx = X[1:] - X[:-1] and the initial row X[0]. -/
def sfx_hyper (ops : Ops) (wish : ℕ → RMat → RMat) (zh : RVec) (dm : Dims)
    (beta0 : ℚ) (X : RMat) : RVec × RMat :=
  let lam := wish (dm.n3 + dm.r)
    (ops.minv (fun a b => eyeR a b +
      (∑ t ∈ Finset.range (dm.n3 - 1), (X (t + 1) a - X t a) * (X (t + 1) b - X t b)) +
      beta0 * (X 0 a * X 0 b) / (beta0 + 1)))
  (mvnrnd_pre ops.chol dm.r (fun s => X 0 s / (beta0 + 1))
      (fun a b => (beta0 + 1) * lam a b) zh, lam)

/-- `var1 = kr_prod(V, U).T` in sample_factor_x. -/
def sfx_var1 (dm : Dims) (U V : RMat) : RMat := transposeM (kr_prod dm.n1 V U)

/-- Column t of `var3` in sample_factor_x (no hyper term is added here). -/
def sfx_var3 (dm : Dims) (tauInd : RTen) (U V : RMat) : ℕ → RMat :=
  fun t a b =>
    mulR (dm.n1 * dm.n2) (kr_prod dm.r (sfx_var1 dm U V) (sfx_var1 dm U V))
      (transposeM (ten2mat dm tauInd 2)) (a * dm.r + b) t

/-- Column t of `var4` in sample_factor_x (no hyper term is added here). -/
def sfx_var4 (dm : Dims) (tauSp : RTen) (U V : RMat) : ℕ → RVec :=
  fun t s => mulR (dm.n1 * dm.n2) (sfx_var1 dm U V) (transposeM (ten2mat dm tauSp 2)) s t

/-- Body of the time loop of sample_factor_x: the new row t computed from the
current (partially overwritten) matrix W, with the first / last / interior
branch structure of the source. -/
def sfx_row (ops : Ops) (dm : Dims) (lam : RMat) (mu : RVec)
    (var3 : ℕ → RMat) (var4 : ℕ → RVec) (zr : ℕ → RVec) (W : RMat) (t : ℕ) : RVec :=
  if t = 0 then
    mvnrnd_pre ops.chol dm.r (fun s => (W (t + 1) s + mu s) / 2)
      (fun a b => var3 t a b + 2 * lam a b) (zr t)
  else if t = dm.n3 - 1 then
    mvnrnd_pre ops.chol dm.r
      (ops.lsolve (fun a b => var3 t a b + lam a b)
        (fun s => var4 t s + mulVecR dm.r lam (W (t - 1)) s))
      (fun a b => var3 t a b + lam a b) (zr t)
  else
    mvnrnd_pre ops.chol dm.r
      (ops.lsolve (fun a b => var3 t a b + 2 * lam a b)
        (fun s => var4 t s + mulVecR dm.r lam (fun q => W (t - 1) q + W (t + 1) q) s))
      (fun a b => var3 t a b + 2 * lam a b) (zr t)

/-- `sample_factor_x(tau_sparse_tensor, tau_ind, U, V, X, beta0)`: the time loop
processes t = 0 .. d3-1 in order, overwriting X row by row. -/
def sample_factor_x (ops : Ops) (wish : ℕ → RMat → RMat) (zh : RVec) (zr : ℕ → RVec)
    (dm : Dims) (tauSp tauInd : RTen) (U V X : RMat) (beta0 : ℚ) : RMat :=
  let h := sfx_hyper ops wish zh dm beta0 X
  (List.range dm.n3).foldl
    (fun W t => updRow W t
      (sfx_row ops dm h.2 h.1 (sfx_var3 dm tauInd U V) (sfx_var4 dm tauSp U V) zr W t)) X

/-- Sum of a scalar field over the whole index box of the tensor. -/
def tsum3 (dm : Dims) (f : ℕ → ℕ → ℕ → ℚ) : ℚ :=
  ∑ i ∈ Finset.range dm.n1, ∑ j ∈ Finset.range dm.n2, ∑ k ∈ Finset.range dm.n3, f i j k

/-- `sample_precision_tau(sparse_tensor, tensor_hat, ind)`: Gamma draw with
shape 1e-6 + 0.5 * sum(ind) and scale 1 / (1e-6 + 0.5 * masked squared residual). -/
def sample_precision_tau (gam : ℚ → ℚ → ℚ) (dm : Dims) (sparse hat : RTen)
    (ind : ℕ → ℕ → ℕ → Bool) : ℚ :=
  gam ((1 : ℚ) / 1000000 + (1 / 2) * tsum3 dm (fun i j k => if ind i j k then 1 else 0))
    (1 / ((1 : ℚ) / 1000000 +
      (1 / 2) * tsum3 dm (fun i j k =>
        (sparse i j k - hat i j k) ^ 2 * (if ind i j k then 1 else 0))))

/-- IEEE comparison `x != 0` on a possibly-NaN value (NaN != 0 is true). -/
def neZeroO : Option ℚ → Bool
  | none => true
  | some q => decide (q ≠ 0)

/-- IEEE comparison `x == 0` on a possibly-NaN value (NaN == 0 is false). -/
def eqZeroO : Option ℚ → Bool
  | none => false
  | some q => decide (q = 0)

/-- `np.isnan(sp).any()` over the index box. -/
def hasNaN (dm : Dims) (sp : NTen) : Bool :=
  decide (∃ i < dm.n1, ∃ j < dm.n2, ∃ k < dm.n3, sp i j k = none)

/-- `np.where` on a boolean tensor: the list of positions where the predicate
holds, in row-major (C) order. -/
def posWhere (dm : Dims) (p : ℕ → ℕ → ℕ → Bool) : List Pos3 :=
  (List.range dm.n1).flatMap (fun i =>
    (List.range dm.n2).flatMap (fun j =>
      ((List.range dm.n3).filter (fun k => p i j k)).map (fun k => (i, j, k))))

/-- Result of the pre-loop phase of BPTF: observation mask, held-out position
list, the (zero-filled) numeric sparse tensor used by the samplers, the
caller-visible contents of the sparse array after the in-place NaN fill, and
dense_test. -/
structure PreOut where
  ind : ℕ → ℕ → ℕ → Bool
  posTest : List Pos3
  sparse_q : RTen
  sparse_caller : NTen
  dense_test : List (Option ℚ)

/-- The pre-loop phase of BPTF: branch on `np.isnan(sparse_tensor).any()`,
build `ind` and `pos_test`, and (in the NaN branch) zero-fill the NaN entries
in place. -/
def preprocess (dm : Dims) (dense sparse : NTen) : PreOut :=
  if hasNaN dm sparse = false then
    let pt := posWhere dm (fun i j k => neZeroO (dense i j k) && eqZeroO (sparse i j k))
    { ind := fun i j k => neZeroO (sparse i j k),
      posTest := pt,
      sparse_q := fun i j k => (sparse i j k).getD 0,
      sparse_caller := sparse,
      dense_test := pt.map (fun p => dense p.1 p.2.1 p.2.2) }
  else
    let pt := posWhere dm (fun i j k => neZeroO (dense i j k) && (sparse i j k).isNone)
    { ind := fun i j k => (sparse i j k).isSome,
      posTest := pt,
      sparse_q := fun i j k => (sparse i j k).getD 0,
      sparse_caller := fun i j k =>
        match sparse i j k with
        | none => some 0
        | v => v,
      dense_test := pt.map (fun p => dense p.1 p.2.1 p.2.2) }

/-- Mutable state of the Gibbs loop: the three factor matrices, the noise
precision tau, the diagnostic held-out accumulator temp_hat and the
posterior-mean accumulator tensor_hat_plus. -/
structure BState where
  U : RMat
  V : RMat
  X : RMat
  tau : ℚ
  tempHat : List ℚ
  hatPlus : RTen

/-- `tau_ind = tau * ind` (boolean mask scaled by tau). -/
def step_tauInd (ind : ℕ → ℕ → ℕ → Bool) (tau : ℚ) : RTen :=
  fun i j k => if ind i j k then tau else 0

/-- `tau_sparse_tensor = tau * sparse_tensor`. -/
def step_tauSp (sp : RTen) (tau : ℚ) : RTen := fun i j k => tau * sp i j k

/-- The value of U after the call `U = sample_factor_u(...)` in one sweep. -/
def stepU (ops : Ops) (rnd : IterRand) (dm : Dims) (sp : RTen)
    (ind : ℕ → ℕ → ℕ → Bool) (U V X : RMat) (tau : ℚ) : RMat :=
  sample_factor_u ops rnd.wishU rnd.zUh rnd.zU dm (step_tauSp sp tau) (step_tauInd ind tau)
    U V X 1

/-- The value of V after the call `V = sample_factor_v(...)` in one sweep
(conditioned on the freshly updated U). -/
def stepV (ops : Ops) (rnd : IterRand) (dm : Dims) (sp : RTen)
    (ind : ℕ → ℕ → ℕ → Bool) (U V X : RMat) (tau : ℚ) : RMat :=
  sample_factor_v ops rnd.wishV rnd.zVh rnd.zV dm (step_tauSp sp tau) (step_tauInd ind tau)
    (stepU ops rnd dm sp ind U V X tau) V X 1

/-- The value of X after the call `X = sample_factor_x(...)` in one sweep
(conditioned on the freshly updated U and V). -/
def stepX (ops : Ops) (rnd : IterRand) (dm : Dims) (sp : RTen)
    (ind : ℕ → ℕ → ℕ → Bool) (U V X : RMat) (tau : ℚ) : RMat :=
  sample_factor_x ops rnd.wishX rnd.zXh rnd.zX dm (step_tauSp sp tau) (step_tauInd ind tau)
    (stepU ops rnd dm sp ind U V X tau) (stepV ops rnd dm sp ind U V X tau) X 1

/-- `tensor_hat = np.einsum('is, js, ts -> ijt', U, V, X)` computed from the
three just-updated factors of the sweep. -/
def stepHat (ops : Ops) (rnd : IterRand) (dm : Dims) (sp : RTen)
    (ind : ℕ → ℕ → ℕ → Bool) (U V X : RMat) (tau : ℚ) : RTen :=
  fun i j k => ∑ q ∈ Finset.range dm.r,
    stepU ops rnd dm sp ind U V X tau i q *
      stepV ops rnd dm sp ind U V X tau j q *
        stepX ops rnd dm sp ind U V X tau k q

/-- One Gibbs sweep (iteration `it` of the main loop of BPTF): resample U, V, X
and tau, accumulate temp_hat at the held-out positions (resetting it every 200
sweeps during burn-in, as the diagnostic print branch does), and add the
reconstruction to tensor_hat_plus once the burn-in is over. -/
def bptfStep (ops : Ops) (rnd : IterRand) (dm : Dims) (burn : ℕ) (sp : RTen)
    (ind : ℕ → ℕ → ℕ → Bool) (posTest : List Pos3) (it : ℕ) (s : BState) : BState :=
  { U := stepU ops rnd dm sp ind s.U s.V s.X s.tau
    V := stepV ops rnd dm sp ind s.U s.V s.X s.tau
    X := stepX ops rnd dm sp ind s.U s.V s.X s.tau
    tau := sample_precision_tau rnd.gam dm sp (stepHat ops rnd dm sp ind s.U s.V s.X s.tau) ind
    tempHat :=
      if (it + 1) % 200 = 0 ∧ it < burn then List.replicate posTest.length 0
      else List.zipWith (fun a b => a + b) s.tempHat
        (posTest.map (fun p => stepHat ops rnd dm sp ind s.U s.V s.X s.tau p.1 p.2.1 p.2.2))
    hatPlus :=
      if burn < it + 1 then
        fun i j k => s.hatPlus i j k + stepHat ops rnd dm sp ind s.U s.V s.X s.tau i j k
      else s.hatPlus }

/-- State after the first n sweeps of the main loop. -/
def bchain (ops : Ops) (rands : ℕ → IterRand) (dm : Dims) (burn : ℕ) (sp : RTen)
    (ind : ℕ → ℕ → ℕ → Bool) (posTest : List Pos3) (s0 : BState) (n : ℕ) : BState :=
  (List.range n).foldl (fun s it => bptfStep ops (rands it) dm burn sp ind posTest it s) s0

/-- Initial loop state: tau = 1, temp_hat = zeros(len(pos_test)),
tensor_hat_plus = zeros(dim). -/
def init_state (U V X : RMat) (m : ℕ) : BState :=
  ⟨U, V, X, 1, List.replicate m 0, fun _ _ _ => 0⟩

/-- What BPTF leaves behind: the returned posterior-mean tensor, and the final
contents of the arrays the source mutates in place (init["U"], init["V"],
init["X"], the sparse tensor) plus the final tau. -/
structure BOut where
  tensor_hat : RTen
  U : RMat
  V : RMat
  X : RMat
  tau : ℚ
  sparse_caller : NTen

/-- `BPTF(dense_tensor, sparse_tensor, init, burn_iter, gibbs_iter)`. -/
def BPTF (ops : Ops) (rands : ℕ → IterRand) (dm : Dims) (dense sparse : NTen)
    (initU initV initX : RMat) (burn gibbs : ℕ) : BOut :=
  let pre := preprocess dm dense sparse
  let fin := bchain ops rands dm burn pre.sparse_q pre.ind pre.posTest
    (init_state initU initV initX pre.posTest.length) (burn + gibbs)
  ⟨fun i j k => fin.hatPlus i j k / (gibbs : ℚ), fin.U, fin.V, fin.X, fin.tau,
    pre.sparse_caller⟩

/-- The reconstruction `tensor_hat` computed during sweep n - 1 (equivalently,
the rank contraction of the factor matrices of the state after n sweeps). -/
def recon_at (ops : Ops) (rands : ℕ → IterRand) (dm : Dims) (burn : ℕ) (sp : RTen)
    (ind : ℕ → ℕ → ℕ → Bool) (posTest : List Pos3) (s0 : BState) (n : ℕ) : RTen :=
  fun i j k => ∑ q ∈ Finset.range dm.r,
    (bchain ops rands dm burn sp ind posTest s0 n).U i q *
      (bchain ops rands dm burn sp ind posTest s0 n).V j q *
        (bchain ops rands dm burn sp ind posTest s0 n).X k q

/-- Bounds-checked body of the time loop of sample_factor_x: every access to a
row of the partially updated X is guarded by the numpy bounds check, `none`
standing for the IndexError raised on an out-of-range row index. -/
def sfx_row_chk (ops : Ops) (dm : Dims) (lam : RMat) (mu : RVec)
    (var3 : ℕ → RMat) (var4 : ℕ → RVec) (zr : ℕ → RVec) (W : RMat) (t : ℕ) : Option RVec :=
  if t = 0 then
    if t + 1 < dm.n3 then some (sfx_row ops dm lam mu var3 var4 zr W t) else none
  else if t = dm.n3 - 1 then
    if t - 1 < dm.n3 then some (sfx_row ops dm lam mu var3 var4 zr W t) else none
  else
    if t - 1 < dm.n3 ∧ t + 1 < dm.n3 then some (sfx_row ops dm lam mu var3 var4 zr W t)
    else none

/-- Bounds-checked sample_factor_x: the hyperparameter block reads X[0, :]
(demanding d3 > 0) and then the time loop runs with checked row accesses;
`none` models the IndexError numpy raises on the corresponding access. -/
def sample_factor_x_chk (ops : Ops) (wish : ℕ → RMat → RMat) (zh : RVec) (zr : ℕ → RVec)
    (dm : Dims) (tauSp tauInd : RTen) (U V X : RMat) (beta0 : ℚ) : Option RMat :=
  if 0 < dm.n3 then
    let h := sfx_hyper ops wish zh dm beta0 X
    (List.range dm.n3).foldl
      (fun ow t => ow.bind (fun W =>
        (sfx_row_chk ops dm h.2 h.1 (sfx_var3 dm tauInd U V) (sfx_var4 dm tauSp U V) zr W t).map
          (updRow W t)))
      (some X)
  else none

/-- A shaped float tensor: numpy's shape tuple together with the entries. -/
structure STen where
  d1 : ℕ
  d2 : ℕ
  d3 : ℕ
  val : NTen

/-- A shaped boolean tensor. -/
structure SBTen where
  d1 : ℕ
  d2 : ℕ
  d3 : ℕ
  val : ℕ → ℕ → ℕ → Bool

/-- A shaped matrix (used for the init factor matrices). -/
structure SMat where
  rows : ℕ
  cols : ℕ
  val : RMat

/-- numpy broadcasting of one axis pair: equal sizes pass through and a size-1
axis stretches; incompatible sizes are a broadcast error. -/
def bdim (a b : ℕ) : Option ℕ :=
  if a = b then some a else if a = 1 then some b else if b = 1 then some a else none

/-- Index into a possibly-stretched axis: a size-1 axis is always read at 0. -/
def bix (sz i : ℕ) : ℕ := if sz = 1 then 0 else i

/-- Elementwise map on a shaped tensor (shape preserved). -/
def mapS (f : Option ℚ → Bool) (A : STen) : SBTen :=
  ⟨A.d1, A.d2, A.d3, fun i j k => f (A.val i j k)⟩

/-- Elementwise `&` of two boolean tensors under numpy broadcasting; `none`
models the ValueError raised on incompatible shapes. -/
def andS (A B : SBTen) : Option SBTen :=
  match bdim A.d1 B.d1, bdim A.d2 B.d2, bdim A.d3 B.d3 with
  | some e1, some e2, some e3 =>
      some ⟨e1, e2, e3, fun i j k =>
        A.val (bix A.d1 i) (bix A.d2 j) (bix A.d3 k) &&
          B.val (bix B.d1 i) (bix B.d2 j) (bix B.d3 k)⟩
  | _, _, _ => none

/-- `np.where` on a shaped boolean tensor. -/
def whereS (M : SBTen) : List Pos3 := posWhere ⟨M.d1, M.d2, M.d3, 0⟩ M.val

/-- `np.isnan(A).any()` on a shaped tensor. -/
def hasNaNS (A : STen) : Bool := hasNaN ⟨A.d1, A.d2, A.d3, 0⟩ A.val

/-- Shaped result of the pre-loop phase. -/
structure PreS where
  ind : SBTen
  pos_obs : List Pos3
  posTest : List Pos3
  sparseF : STen
  dense_test : List (Option ℚ)

/-- numpy integer fancy indexing `A[ps]` on a shaped tensor: bounds-checked,
with `none` modelling the IndexError raised when any position lies outside the
array's own shape (np.where only produces nonnegative indices, so only the
upper bounds are relevant). -/
def fancyIndex (A : STen) (ps : List Pos3) : Option (List (Option ℚ)) :=
  if ps.all (fun p =>
      decide (p.1 < A.d1) && decide (p.2.1 < A.d2) && decide (p.2.2 < A.d3)) then
    some (ps.map (fun p => A.val p.1 p.2.1 p.2.2))
  else none

/-- The pre-loop phase of BPTF with numpy shape semantics made explicit: every
statement executed between the entry of BPTF and the first iteration of the
Gibbs loop, with `none` modelling an abort — either the broadcast ValueError
at the held-out mask construction, or the IndexError at the bounds-checked
fancy indexing dense_tensor[pos_test] when the mask's broadcast shape yields
positions outside the dense tensor's own shape.  The init factor matrices are
received (the source binds U = init["U"] etc.) but no pre-loop statement reads
them or their shapes. -/
def bptfPre (dense sparse : STen) (initU initV initX : SMat) : Option PreS :=
  if hasNaNS sparse = false then
    (andS (mapS neZeroO dense) (mapS eqZeroO sparse)).bind (fun tb =>
      (fancyIndex dense (whereS tb)).map (fun dt =>
        { ind := mapS neZeroO sparse,
          pos_obs := whereS (mapS neZeroO sparse),
          posTest := whereS tb,
          sparseF := sparse,
          dense_test := dt }))
  else
    (andS (mapS neZeroO dense) (mapS (fun v => v.isNone) sparse)).bind (fun tb =>
      (fancyIndex dense (whereS tb)).map (fun dt =>
        { ind := mapS (fun v => v.isSome) sparse,
          pos_obs := whereS (mapS (fun v => v.isSome) sparse),
          posTest := whereS tb,
          sparseF := ⟨sparse.d1, sparse.d2, sparse.d3, fun i j k =>
            match sparse.val i j k with
            | none => some 0
            | v => v⟩,
          dense_test := dt }))

/-- Example dimensions for the held-out-set example of the spec: a 2 x 2
matrix viewed as a (2, 2, 1) tensor, rank 1. -/
def dmEx2 : Dims := ⟨2, 2, 1, 1⟩

/-- Example reference tensor dense = [[1, 0], [2, 3]]. -/
def exDense2 : NTen := fun i j _ =>
  some (if i = 0 then (if j = 0 then 1 else 0) else (if j = 0 then 2 else 3))

/-- Example observed tensor sparse = [[1, NaN], [2, 0]]. -/
def exSparse2 : NTen := fun i j _ =>
  if i = 0 then (if j = 0 then some 1 else none) else (if j = 0 then some 2 else some 0)

/-- Trivial library oracles for concrete evaluations: identity inverse oracle,
a solver returning its right-hand side, identity Cholesky factor. -/
def exOps : Ops := ⟨fun M => M, fun _ v => v, fun _ => eyeR⟩

/-- Library oracles whose solver returns the constant vector 5; used to show a
sweep really changes the factor rows. -/
def exOps5 : Ops := ⟨fun M => M, fun _ _ => fun _ => 5, fun _ => eyeR⟩

/-- Trivial per-sweep randomness: Wishart oracles returning their scale, zero
normal vectors, and a Gamma oracle returning the shape times the scale. -/
def exRand : IterRand :=
  ⟨fun _ s => s, fun _ s => s, fun _ s => s, fun _ => 0, fun _ => 0, fun _ => 0,
    fun _ _ => 0, fun _ _ => 0, fun _ _ => 0, fun a b => a * b⟩

/-- Tiny dimensions for end-to-end concrete runs: 1 x 1 x 2 tensor, rank 1. -/
def dmEx9 : Dims := ⟨1, 1, 2, 1⟩

/-- All-ones fully observed tensor on the tiny example. -/
def exOnes : NTen := fun _ _ _ => some 1

/-- All-zero factor matrix. -/
def zeroM : RMat := fun _ _ => 0

/-- Shaped tensors and init matrices for the input-validation example: dense
and sparse share the shape (2, 2, 2) and are fully observed. -/
def exDense7 : STen := ⟨2, 2, 2, fun _ _ _ => some 1⟩

/-- Shaped sparse tensor of the input-validation example (equal to the dense
one, so no NaN and no zero entry). -/
def exSparse7 : STen := ⟨2, 2, 2, fun _ _ _ => some 1⟩

/-- A shaped dense tensor whose first axis disagrees with exSparse7 and cannot
broadcast against it. -/
def exDense7bad : STen := ⟨3, 2, 2, fun _ _ _ => some 1⟩

/-- A shaped dense tensor [[[5]]] of shape (1, 1, 1): broadcastable against a
(1, 1, 2) sparse tensor, but too small for the resulting held-out positions. -/
def exDense7bc : STen := ⟨1, 1, 1, fun _ _ _ => some 5⟩

/-- A shaped sparse tensor [[[1, 0]]] of shape (1, 1, 2) with no NaN; its zero
entry at (0, 0, 1) puts that broadcast position into the held-out list. -/
def exSparse7bc : STen := ⟨1, 1, 2, fun _ _ k => if k = 0 then some 1 else some 0⟩

/-- Malformed init factor matrix: 5 rows and 3 columns, matching neither the
tensor dimension d1 = 2 nor the rank of the other factors. -/
def exUbad : SMat := ⟨5, 3, fun _ _ => 0⟩

/-- Well-formed init factor matrix for the second mode (2 rows, rank 2). -/
def exV7 : SMat := ⟨2, 2, fun _ _ => 0⟩

/-- Well-formed init factor matrix for the third mode (2 rows, rank 2). -/
def exX7 : SMat := ⟨2, 2, fun _ _ => 0⟩

/- ------------------------------------------------------------------ -/
/- Theorems.                                                           -/
/- ------------------------------------------------------------------ -/

/-- The fuel argument of backSubF is irrelevant once it covers r - j. -/
theorem backSubF_fuel (C : RMat) (z : RVec) (r : ℕ) :
    ∀ fuel fuel' j, r - j ≤ fuel → r - j ≤ fuel' →
      backSubF C z r fuel j = backSubF C z r fuel' j := by
  intro fuel
  induction fuel with
  | zero =>
    intro fuel' j h h'
    have hj : ¬ j < r := by omega
    cases fuel' with
    | zero => rfl
    | succ f => simp [backSubF, hj]
  | succ f ih =>
    intro fuel' j h h'
    cases fuel' with
    | zero =>
      have hj : ¬ j < r := by omega
      simp [backSubF, hj]
    | succ f' =>
      simp only [backSubF]
      by_cases hj : j < r
      · rw [if_pos hj, if_pos hj]
        congr 2
        apply Finset.sum_congr rfl
        intro j' hj'
        have hm := Finset.mem_Ico.mp hj'
        rw [ih f' j' (by omega) (by omega)]
      · rw [if_neg hj, if_neg hj]

/-- Unfolding equation of the backward substitution at an in-range row. -/
theorem backSub_eq (r : ℕ) (C : RMat) (z : RVec) (i : ℕ) (hi : i < r) :
    backSub r C z i
      = (z i - ∑ j ∈ Finset.Ico (i + 1) r, C i j * backSub r C z j) / C i i := by
  unfold backSub
  have hr : r - i = (r - i - 1) + 1 := by omega
  rw [hr]
  simp only [backSubF]
  rw [if_pos hi]
  congr 2
  apply Finset.sum_congr rfl
  intro j hj
  have hm := Finset.mem_Ico.mp hj
  rw [backSubF_fuel C z r (r - i - 1) (r - j) j (by omega) (by omega)]

/-- backSub really solves the system: multiplying an upper-triangular C with
nonzero diagonal by the substitution result returns the right-hand side. -/
theorem mulVecR_backSub (r : ℕ) (C : RMat) (z : RVec)
    (hut : ∀ i, i < r → ∀ j, j < r → j < i → C i j = 0)
    (hd : ∀ i, i < r → C i i ≠ 0) :
    ∀ i, i < r → mulVecR r C (backSub r C z) i = z i := by
  intro i hi
  unfold mulVecR
  rw [Finset.range_eq_Ico,
    ← Finset.sum_Ico_consecutive (fun k => C i k * backSub r C z k)
      (Nat.zero_le i) (le_of_lt hi)]
  have h0 : ∑ k ∈ Finset.Ico 0 i, C i k * backSub r C z k = 0 := by
    apply Finset.sum_eq_zero
    intro k hk
    have hm := Finset.mem_Ico.mp hk
    rw [hut i hi k (by omega) (by omega)]
    ring
  rw [h0, zero_add, Finset.sum_eq_sum_Ico_succ_bot hi, backSub_eq r C z i hi,
    mul_comm, div_mul_cancel₀ _ (hd i hi)]
  ring

/-- Contracting the identity from the left inside a length-r sum. -/
theorem sum_eyeR_mul (r i : ℕ) (hi : i < r) (v : RVec) :
    ∑ j ∈ Finset.range r, eyeR i j * v j = v i := by
  rw [Finset.sum_eq_single i]
  · simp [eyeR]
  · intro b _ hb
    simp [eyeR, Ne.symm hb]
  · intro hnot
    exact absurd (Finset.mem_range.mpr hi) hnot

/-- Contracting the identity from the right inside a length-r sum. -/
theorem sum_mul_eyeR (r i : ℕ) (hi : i < r) (v : RVec) :
    ∑ j ∈ Finset.range r, v j * eyeR i j = v i := by
  rw [Finset.sum_eq_single i]
  · simp [eyeR]
  · intro b _ hb
    simp [eyeR, Ne.symm hb]
  · intro hnot
    exact absurd (Finset.mem_range.mpr hi) hnot

/-- Associativity of the bounded matrix product. -/
theorem mulR_assoc (r : ℕ) (A B D : RMat) (i l : ℕ) :
    mulR r (mulR r A B) D i l = mulR r A (mulR r B D) i l := by
  unfold mulR
  simp only [Finset.sum_mul, Finset.mul_sum, mul_assoc]
  exact Finset.sum_comm

/-- C6: mvnrnd_pre adds the mean to the result of one triangular solve against
the upper Cholesky factor C of the precision Lambda, so with the normal vector
z fixed the output is mu + C⁻¹ z; moreover the linear map applied to z has
square Ci * Ciᵀ equal to the inverse of Lambda (so the draw has covariance
Lambda⁻¹, not Lambda).  C is assumed upper triangular with nonzero diagonal and
CᵀC = Lambda on the index range, with Ci a two-sided inverse of C there. -/
theorem c6_mvnrnd_pre_precision (chol : RMat → RMat) (r : ℕ) (mu z : RVec)
    (Lambda C Ci : RMat)
    (hc : chol Lambda = C)
    (hut : ∀ i, i < r → ∀ j, j < r → j < i → C i j = 0)
    (hd : ∀ i, i < r → C i i ≠ 0)
    (hfac : ∀ i, i < r → ∀ j, j < r → Lambda i j = mulR r (transposeM C) C i j)
    (hinv1 : ∀ i, i < r → ∀ j, j < r → mulR r Ci C i j = eyeR i j)
    (hinv2 : ∀ i, i < r → ∀ j, j < r → mulR r C Ci i j = eyeR i j) :
    (∀ i, i < r → mvnrnd_pre chol r mu Lambda z i = mu i + mulVecR r Ci z i)
    ∧ (∀ i, i < r → ∀ j, j < r →
        mulR r Lambda (mulR r Ci (transposeM Ci)) i j = eyeR i j)
    ∧ (∀ i, i < r → ∀ j, j < r →
        mulR r (mulR r Ci (transposeM Ci)) Lambda i j = eyeR i j) := by
  have hsolve : ∀ i, i < r → backSub r C z i = mulVecR r Ci z i := by
    intro i hi
    have h1 : mulVecR r Ci z i
        = ∑ k ∈ Finset.range r, Ci i k * mulVecR r C (backSub r C z) k := by
      show (∑ k ∈ Finset.range r, Ci i k * z k)
          = ∑ k ∈ Finset.range r, Ci i k * mulVecR r C (backSub r C z) k
      apply Finset.sum_congr rfl
      intro k hk
      rw [mulVecR_backSub r C z hut hd k (Finset.mem_range.mp hk)]
    have h2 : ∑ k ∈ Finset.range r, Ci i k * mulVecR r C (backSub r C z) k
        = ∑ j ∈ Finset.range r, mulR r Ci C i j * backSub r C z j := by
      unfold mulVecR mulR
      simp only [Finset.mul_sum, Finset.sum_mul, mul_assoc]
      exact Finset.sum_comm
    have h3 : ∑ j ∈ Finset.range r, mulR r Ci C i j * backSub r C z j
        = ∑ j ∈ Finset.range r, eyeR i j * backSub r C z j := by
      apply Finset.sum_congr rfl
      intro j hj
      rw [hinv1 i hi j (Finset.mem_range.mp hj)]
    rw [h1, h2, h3, sum_eyeR_mul r i hi]
  refine ⟨?_, ?_, ?_⟩
  · intro i hi
    unfold mvnrnd_pre
    rw [hc, hsolve i hi, add_comm]
  · intro i hi j hj
    have hCM : ∀ a, a < r →
        mulR r C (mulR r Ci (transposeM Ci)) a j = transposeM Ci a j := by
      intro a ha
      rw [← mulR_assoc]
      calc mulR r (mulR r C Ci) (transposeM Ci) a j
          = ∑ k ∈ Finset.range r, mulR r C Ci a k * transposeM Ci k j := rfl
        _ = ∑ k ∈ Finset.range r, eyeR a k * transposeM Ci k j := by
              apply Finset.sum_congr rfl
              intro k hk
              rw [hinv2 a ha k (Finset.mem_range.mp hk)]
        _ = transposeM Ci a j := sum_eyeR_mul r a ha (fun k => transposeM Ci k j)
    calc mulR r Lambda (mulR r Ci (transposeM Ci)) i j
        = ∑ k ∈ Finset.range r, Lambda i k * mulR r Ci (transposeM Ci) k j := rfl
      _ = ∑ k ∈ Finset.range r,
            mulR r (transposeM C) C i k * mulR r Ci (transposeM Ci) k j := by
            apply Finset.sum_congr rfl
            intro k hk
            rw [hfac i hi k (Finset.mem_range.mp hk)]
      _ = mulR r (mulR r (transposeM C) C) (mulR r Ci (transposeM Ci)) i j := rfl
      _ = mulR r (transposeM C) (mulR r C (mulR r Ci (transposeM Ci))) i j :=
            mulR_assoc r (transposeM C) C (mulR r Ci (transposeM Ci)) i j
      _ = ∑ a ∈ Finset.range r,
            transposeM C i a * mulR r C (mulR r Ci (transposeM Ci)) a j := rfl
      _ = ∑ a ∈ Finset.range r, Ci j a * C a i := by
            apply Finset.sum_congr rfl
            intro a ha
            rw [hCM a (Finset.mem_range.mp ha)]
            unfold transposeM
            ring
      _ = mulR r Ci C j i := rfl
      _ = eyeR j i := hinv1 j hj i hi
      _ = eyeR i j := by simp [eyeR, eq_comm]
  · intro i hi j hj
    have hMCt : ∀ b, b < r →
        mulR r (mulR r Ci (transposeM Ci)) (transposeM C) i b = Ci i b := by
      intro b hb
      rw [mulR_assoc]
      have hinner : ∀ a ∈ Finset.range r,
          Ci i a * mulR r (transposeM Ci) (transposeM C) a b = Ci i a * eyeR b a := by
        intro a ha
        congr 1
        have h1 : mulR r (transposeM Ci) (transposeM C) a b
            = ∑ k ∈ Finset.range r, C b k * Ci k a := by
          unfold mulR transposeM
          apply Finset.sum_congr rfl
          intro k _
          ring
        rw [h1]
        exact hinv2 b hb a (Finset.mem_range.mp ha)
      calc mulR r Ci (mulR r (transposeM Ci) (transposeM C)) i b
          = ∑ a ∈ Finset.range r,
              Ci i a * mulR r (transposeM Ci) (transposeM C) a b := rfl
        _ = ∑ a ∈ Finset.range r, Ci i a * eyeR b a := Finset.sum_congr rfl hinner
        _ = Ci i b := sum_mul_eyeR r b hb (fun a => Ci i a)
    calc mulR r (mulR r Ci (transposeM Ci)) Lambda i j
        = ∑ k ∈ Finset.range r, mulR r Ci (transposeM Ci) i k * Lambda k j := rfl
      _ = ∑ k ∈ Finset.range r,
            mulR r Ci (transposeM Ci) i k * mulR r (transposeM C) C k j := by
            apply Finset.sum_congr rfl
            intro k hk
            rw [hfac k (Finset.mem_range.mp hk) j hj]
      _ = mulR r (mulR r Ci (transposeM Ci)) (mulR r (transposeM C) C) i j := rfl
      _ = mulR r (mulR r (mulR r Ci (transposeM Ci)) (transposeM C)) C i j :=
            (mulR_assoc r (mulR r Ci (transposeM Ci)) (transposeM C) C i j).symm
      _ = ∑ b ∈ Finset.range r,
            mulR r (mulR r Ci (transposeM Ci)) (transposeM C) i b * C b j := rfl
      _ = ∑ b ∈ Finset.range r, Ci i b * C b j := by
            apply Finset.sum_congr rfl
            intro b hb
            rw [hMCt b (Finset.mem_range.mp hb)]
      _ = mulR r Ci C i j := rfl
      _ = eyeR i j := hinv1 i hi j hj

/-- Witness for C6: the instantiation r = 1, C = [[2]], Lambda = [[4]],
Ci = [[1/2]], with concrete mean and normal vector. -/
theorem c6_witness :
    ((fun _ : RMat => (fun _ _ => 2 : RMat)) ((fun _ _ => 4 : RMat)) = (fun _ _ => 2 : RMat))
    ∧ (∀ i, i < 1 → ((fun _ _ => 2 : RMat)) i i ≠ 0)
    ∧ (∀ i, i < 1 → mvnrnd_pre (fun _ => (fun _ _ => 2 : RMat)) 1 (fun _ => 3)
        (fun _ _ => 4) (fun _ => 5) i
          = (fun _ => (3 : ℚ)) i + mulVecR 1 (fun _ _ => 1 / 2) (fun _ => 5) i) := by
  refine ⟨rfl, by intro i _; norm_num, ?_⟩
  exact (c6_mvnrnd_pre_precision (fun _ => (fun _ _ => 2)) 1 (fun _ => 3) (fun _ => 5)
    (fun _ _ => 4) (fun _ _ => 2) (fun _ _ => 1 / 2) rfl
    (by intro i hi j hj hji; omega)
    (by intro i _; norm_num)
    (by intro i hi j hj; simp [mulR, transposeM]; norm_num)
    (by intro i hi j hj; interval_cases i; interval_cases j; simp [mulR, eyeR])
    (by intro i hi j hj; interval_cases i; interval_cases j; simp [mulR, eyeR])).1

/-- Splitting a sum over range (A * B) into a double sum (row-major blocks). -/
theorem sum_range_mul (A B : ℕ) (f : ℕ → ℚ) :
    ∑ m ∈ Finset.range (A * B), f m
      = ∑ x ∈ Finset.range A, ∑ y ∈ Finset.range B, f (x * B + y) := by
  induction A with
  | zero => simp
  | succ a ih =>
    have h1 : (a + 1) * B = a * B + B := by ring
    rw [h1, Finset.sum_range_succ, ← ih,
      ← Finset.sum_range_add_sum_Ico f (Nat.le_add_right (a * B) B)]
    congr 1
    rw [Finset.sum_Ico_eq_sum_range]
    simp

/-- Mode-0 unfolding in closed form. -/
theorem ten2mat_mode0 (dm : Dims) (T : RTen) (i m : ℕ) :
    ten2mat dm T 0 i m = T i (m % dm.n2) (m / dm.n2) := rfl

/-- Mode-1 unfolding in closed form. -/
theorem ten2mat_mode1 (dm : Dims) (T : RTen) (j m : ℕ) :
    ten2mat dm T 1 j m = T (m % dm.n1) j (m / dm.n1) := rfl

/-- Mode-2 unfolding in closed form. -/
theorem ten2mat_mode2 (dm : Dims) (T : RTen) (k m : ℕ) :
    ten2mat dm T 2 k m = T (m % dm.n1) (m / dm.n1) k := rfl

/-- Entry-level form of the per-row precision contribution of sample_factor_u:
the Khatri-Rao / unfolding composition collapses to the expected double sum
over the other two modes. -/
theorem sfu_var3_entry (dm : Dims) (tauInd : RTen) (V X : RMat) (lam : RMat)
    (i a b : ℕ) (hb : b < dm.r) :
    sfu_var3 dm tauInd V X lam i a b
      = (∑ k ∈ Finset.range dm.n3, ∑ j ∈ Finset.range dm.n2,
          (X k a * V j a) * (X k b * V j b) * tauInd i j k) + lam a b := by
  have hr : 0 < dm.r := by omega
  unfold sfu_var3 mulR
  congr 1
  rw [show dm.n2 * dm.n3 = dm.n3 * dm.n2 from Nat.mul_comm _ _, sum_range_mul]
  apply Finset.sum_congr rfl
  intro k _
  apply Finset.sum_congr rfl
  intro j hj
  have hj2 := Finset.mem_range.mp hj
  have hn2 : 0 < dm.n2 := by omega
  simp only [sfu_var1, kr_prod, transposeM, ten2mat, reduceIte]
  rw [show k * dm.n2 + j = dm.n2 * k + j from by ring,
    show a * dm.r + b = dm.r * a + b from by ring,
    Nat.mul_add_div hn2, Nat.mul_add_div hr, Nat.mul_add_mod, Nat.mul_add_mod,
    Nat.div_eq_of_lt hj2, Nat.div_eq_of_lt hb, Nat.mod_eq_of_lt hj2, Nat.mod_eq_of_lt hb,
    add_zero, add_zero]

/-- Entry-level form of the per-row linear contribution of sample_factor_u. -/
theorem sfu_var4_entry (dm : Dims) (tauSp : RTen) (V X : RMat) (lam : RMat) (mu : RVec)
    (i s : ℕ) :
    sfu_var4 dm tauSp V X lam mu i s
      = (∑ k ∈ Finset.range dm.n3, ∑ j ∈ Finset.range dm.n2,
          X k s * V j s * tauSp i j k) + mulVecR dm.r lam mu s := by
  unfold sfu_var4 mulR
  congr 1
  rw [show dm.n2 * dm.n3 = dm.n3 * dm.n2 from Nat.mul_comm _ _, sum_range_mul]
  apply Finset.sum_congr rfl
  intro k _
  apply Finset.sum_congr rfl
  intro j hj
  have hj2 := Finset.mem_range.mp hj
  have hn2 : 0 < dm.n2 := by omega
  simp only [sfu_var1, kr_prod, transposeM, ten2mat, reduceIte]
  rw [show k * dm.n2 + j = dm.n2 * k + j from by ring,
    Nat.mul_add_div hn2, Nat.mul_add_mod, Nat.div_eq_of_lt hj2, Nat.mod_eq_of_lt hj2,
    add_zero]

/-- Entry-level form of the per-row precision contribution of sample_factor_v. -/
theorem sfv_var3_entry (dm : Dims) (tauInd : RTen) (U X : RMat) (lam : RMat)
    (j a b : ℕ) (hb : b < dm.r) :
    sfv_var3 dm tauInd U X lam j a b
      = (∑ k ∈ Finset.range dm.n3, ∑ i ∈ Finset.range dm.n1,
          (X k a * U i a) * (X k b * U i b) * tauInd i j k) + lam a b := by
  have hr : 0 < dm.r := by omega
  unfold sfv_var3 mulR
  congr 1
  rw [show dm.n1 * dm.n3 = dm.n3 * dm.n1 from Nat.mul_comm _ _, sum_range_mul]
  apply Finset.sum_congr rfl
  intro k _
  apply Finset.sum_congr rfl
  intro i hi
  have hi2 := Finset.mem_range.mp hi
  have hn1 : 0 < dm.n1 := by omega
  simp only [sfv_var1, kr_prod, transposeM, ten2mat_mode1]
  rw [show k * dm.n1 + i = dm.n1 * k + i from by ring,
    show a * dm.r + b = dm.r * a + b from by ring,
    Nat.mul_add_div hn1, Nat.mul_add_div hr, Nat.mul_add_mod, Nat.mul_add_mod,
    Nat.div_eq_of_lt hi2, Nat.div_eq_of_lt hb, Nat.mod_eq_of_lt hi2, Nat.mod_eq_of_lt hb,
    add_zero, add_zero]

/-- Entry-level form of the per-row linear contribution of sample_factor_v. -/
theorem sfv_var4_entry (dm : Dims) (tauSp : RTen) (U X : RMat) (lam : RMat) (mu : RVec)
    (j s : ℕ) :
    sfv_var4 dm tauSp U X lam mu j s
      = (∑ k ∈ Finset.range dm.n3, ∑ i ∈ Finset.range dm.n1,
          X k s * U i s * tauSp i j k) + mulVecR dm.r lam mu s := by
  unfold sfv_var4 mulR
  congr 1
  rw [show dm.n1 * dm.n3 = dm.n3 * dm.n1 from Nat.mul_comm _ _, sum_range_mul]
  apply Finset.sum_congr rfl
  intro k _
  apply Finset.sum_congr rfl
  intro i hi
  have hi2 := Finset.mem_range.mp hi
  have hn1 : 0 < dm.n1 := by omega
  simp only [sfv_var1, kr_prod, transposeM, ten2mat_mode1]
  rw [show k * dm.n1 + i = dm.n1 * k + i from by ring,
    Nat.mul_add_div hn1, Nat.mul_add_mod, Nat.div_eq_of_lt hi2, Nat.mod_eq_of_lt hi2,
    add_zero]

/-- Entry-level form of the per-time-step precision contribution of
sample_factor_x (no hyperparameter term is included). -/
theorem sfx_var3_entry (dm : Dims) (tauInd : RTen) (U V : RMat)
    (t a b : ℕ) (hb : b < dm.r) :
    sfx_var3 dm tauInd U V t a b
      = ∑ j ∈ Finset.range dm.n2, ∑ i ∈ Finset.range dm.n1,
          (V j a * U i a) * (V j b * U i b) * tauInd i j t := by
  have hr : 0 < dm.r := by omega
  unfold sfx_var3 mulR
  rw [show dm.n1 * dm.n2 = dm.n2 * dm.n1 from Nat.mul_comm _ _, sum_range_mul]
  apply Finset.sum_congr rfl
  intro j _
  apply Finset.sum_congr rfl
  intro i hi
  have hi2 := Finset.mem_range.mp hi
  have hn1 : 0 < dm.n1 := by omega
  simp only [sfx_var1, kr_prod, transposeM, ten2mat_mode2]
  rw [show j * dm.n1 + i = dm.n1 * j + i from by ring,
    show a * dm.r + b = dm.r * a + b from by ring,
    Nat.mul_add_div hn1, Nat.mul_add_div hr, Nat.mul_add_mod, Nat.mul_add_mod,
    Nat.div_eq_of_lt hi2, Nat.div_eq_of_lt hb, Nat.mod_eq_of_lt hi2, Nat.mod_eq_of_lt hb,
    add_zero, add_zero]

/-- Entry-level form of the per-time-step linear contribution of
sample_factor_x. -/
theorem sfx_var4_entry (dm : Dims) (tauSp : RTen) (U V : RMat) (t s : ℕ) :
    sfx_var4 dm tauSp U V t s
      = ∑ j ∈ Finset.range dm.n2, ∑ i ∈ Finset.range dm.n1,
          V j s * U i s * tauSp i j t := by
  unfold sfx_var4 mulR
  rw [show dm.n1 * dm.n2 = dm.n2 * dm.n1 from Nat.mul_comm _ _, sum_range_mul]
  apply Finset.sum_congr rfl
  intro j _
  apply Finset.sum_congr rfl
  intro i hi
  have hi2 := Finset.mem_range.mp hi
  have hn1 : 0 < dm.n1 := by omega
  simp only [sfx_var1, kr_prod, transposeM, ten2mat_mode2]
  rw [show j * dm.n1 + i = dm.n1 * j + i from by ring,
    Nat.mul_add_div hn1, Nat.mul_add_mod, Nat.div_eq_of_lt hi2, Nat.mod_eq_of_lt hi2,
    add_zero]

/-- A row-update loop whose body does not read the accumulator is a pointwise
update of the rows below n. -/
theorem foldl_updRow (f : ℕ → RVec) (U : RMat) (n : ℕ) :
    (List.range n).foldl (fun W i => updRow W i (f i)) U
      = fun a b => if a < n then f a b else U a b := by
  induction n with
  | zero =>
    funext a b
    simp [List.range_zero]
  | succ m ih =>
    rw [List.range_succ, List.foldl_append]
    simp only [List.foldl_cons, List.foldl_nil]
    rw [ih]
    funext a b
    simp only [updRow]
    by_cases ha : a = m
    · subst ha
      simp
    · rw [if_neg ha]
      by_cases h2 : a < m
      · rw [if_pos h2, if_pos (by omega)]
      · rw [if_neg h2, if_neg (by omega)]

/-- The row loop of sample_factor_u in closed form: each row below d1 is an
independent draw from precomputed per-row quantities, and rows at or above d1
are untouched. -/
theorem sample_factor_u_rows (ops : Ops) (wish : ℕ → RMat → RMat) (zh : RVec)
    (zr : ℕ → RVec) (dm : Dims) (tauSp tauInd : RTen) (U V X : RMat) (beta0 : ℚ) :
    sample_factor_u ops wish zh zr dm tauSp tauInd U V X beta0
      = fun i c => if i < dm.n1 then
          mvnrnd_pre ops.chol dm.r
            (ops.lsolve
              (sfu_var3 dm tauInd V X (factor_hyper ops wish zh dm.n1 dm.r beta0 U).2 i)
              (sfu_var4 dm tauSp V X (factor_hyper ops wish zh dm.n1 dm.r beta0 U).2
                (factor_hyper ops wish zh dm.n1 dm.r beta0 U).1 i))
            (sfu_var3 dm tauInd V X (factor_hyper ops wish zh dm.n1 dm.r beta0 U).2 i)
            (zr i) c
        else U i c := by
  simp only [sample_factor_u]
  rw [foldl_updRow]

/-- The row loop of sample_factor_v in closed form. -/
theorem sample_factor_v_rows (ops : Ops) (wish : ℕ → RMat → RMat) (zh : RVec)
    (zr : ℕ → RVec) (dm : Dims) (tauSp tauInd : RTen) (U V X : RMat) (beta0 : ℚ) :
    sample_factor_v ops wish zh zr dm tauSp tauInd U V X beta0
      = fun j c => if j < dm.n2 then
          mvnrnd_pre ops.chol dm.r
            (ops.lsolve
              (sfv_var3 dm tauInd U X (factor_hyper ops wish zh dm.n2 dm.r beta0 V).2 j)
              (sfv_var4 dm tauSp U X (factor_hyper ops wish zh dm.n2 dm.r beta0 V).2
                (factor_hyper ops wish zh dm.n2 dm.r beta0 V).1 j))
            (sfv_var3 dm tauInd U X (factor_hyper ops wish zh dm.n2 dm.r beta0 V).2 j)
            (zr j) c
        else V j c := by
  simp only [sample_factor_v]
  rw [foldl_updRow]

/-- C4: in sample_factor_u (and symmetrically sample_factor_v) every row i
below the entity count is an independent Gaussian draw whose precision matrix
is the per-row Khatri-Rao data contribution plus Lambda_hyper and whose mean
solves that precision against (linear contribution + Lambda_hyper mu_hyper);
the closed row-wise form shows the draw for row i reads no updated row (it
depends only on the original factor arguments, the shared hyper pair drawn
once from the unmodified input factor, and the row's own normal vector). -/
theorem c4_rowwise_entity_samplers (ops : Ops) (wish : ℕ → RMat → RMat) (zh : RVec)
    (zr : ℕ → RVec) (dm : Dims) (tauSp tauInd : RTen) (U V X : RMat) (beta0 : ℚ) :
    (sample_factor_u ops wish zh zr dm tauSp tauInd U V X beta0
      = fun i c => if i < dm.n1 then
          mvnrnd_pre ops.chol dm.r
            (ops.lsolve
              (sfu_var3 dm tauInd V X (factor_hyper ops wish zh dm.n1 dm.r beta0 U).2 i)
              (sfu_var4 dm tauSp V X (factor_hyper ops wish zh dm.n1 dm.r beta0 U).2
                (factor_hyper ops wish zh dm.n1 dm.r beta0 U).1 i))
            (sfu_var3 dm tauInd V X (factor_hyper ops wish zh dm.n1 dm.r beta0 U).2 i)
            (zr i) c
        else U i c)
    ∧ (∀ lam i a b, b < dm.r → sfu_var3 dm tauInd V X lam i a b
        = (∑ k ∈ Finset.range dm.n3, ∑ j ∈ Finset.range dm.n2,
            (X k a * V j a) * (X k b * V j b) * tauInd i j k) + lam a b)
    ∧ (∀ lam mu i s, sfu_var4 dm tauSp V X lam mu i s
        = (∑ k ∈ Finset.range dm.n3, ∑ j ∈ Finset.range dm.n2,
            X k s * V j s * tauSp i j k) + mulVecR dm.r lam mu s)
    ∧ (sample_factor_v ops wish zh zr dm tauSp tauInd U V X beta0
      = fun j c => if j < dm.n2 then
          mvnrnd_pre ops.chol dm.r
            (ops.lsolve
              (sfv_var3 dm tauInd U X (factor_hyper ops wish zh dm.n2 dm.r beta0 V).2 j)
              (sfv_var4 dm tauSp U X (factor_hyper ops wish zh dm.n2 dm.r beta0 V).2
                (factor_hyper ops wish zh dm.n2 dm.r beta0 V).1 j))
            (sfv_var3 dm tauInd U X (factor_hyper ops wish zh dm.n2 dm.r beta0 V).2 j)
            (zr j) c
        else V j c)
    ∧ (∀ lam j a b, b < dm.r → sfv_var3 dm tauInd U X lam j a b
        = (∑ k ∈ Finset.range dm.n3, ∑ i ∈ Finset.range dm.n1,
            (X k a * U i a) * (X k b * U i b) * tauInd i j k) + lam a b)
    ∧ (∀ lam mu j s, sfv_var4 dm tauSp U X lam mu j s
        = (∑ k ∈ Finset.range dm.n3, ∑ i ∈ Finset.range dm.n1,
            X k s * U i s * tauSp i j k) + mulVecR dm.r lam mu s) := by
  refine ⟨sample_factor_u_rows ops wish zh zr dm tauSp tauInd U V X beta0, ?_, ?_,
    sample_factor_v_rows ops wish zh zr dm tauSp tauInd U V X beta0, ?_, ?_⟩
  · intro lam i a b hb
    exact sfu_var3_entry dm tauInd V X lam i a b hb
  · intro lam mu i s
    exact sfu_var4_entry dm tauSp V X lam mu i s
  · intro lam j a b hb
    exact sfv_var3_entry dm tauInd U X lam j a b hb
  · intro lam mu j s
    exact sfv_var4_entry dm tauSp U X lam mu j s

/-- Witness for C4: concrete instantiation on the 1 x 1 x 2 rank-1 example. -/
theorem c4_witness :
    (0 < dmEx9.r)
    ∧ (sfu_var3 dmEx9 (fun _ _ _ => 1) zeroM zeroM eyeR 0 0 0
        = (∑ k ∈ Finset.range dmEx9.n3, ∑ j ∈ Finset.range dmEx9.n2,
            (zeroM k 0 * zeroM j 0) * (zeroM k 0 * zeroM j 0) * 1) + eyeR 0 0)
    ∧ (sample_factor_u exOps (fun _ s => s) (fun _ => 0) (fun _ _ => 0) dmEx9
        (fun _ _ _ => 1) (fun _ _ _ => 1) zeroM zeroM zeroM 1
      = fun i c => if i < dmEx9.n1 then
          mvnrnd_pre exOps.chol dmEx9.r
            (exOps.lsolve
              (sfu_var3 dmEx9 (fun _ _ _ => 1) zeroM zeroM
                (factor_hyper exOps (fun _ s => s) (fun _ => 0) dmEx9.n1 dmEx9.r 1 zeroM).2 i)
              (sfu_var4 dmEx9 (fun _ _ _ => 1) zeroM zeroM
                (factor_hyper exOps (fun _ s => s) (fun _ => 0) dmEx9.n1 dmEx9.r 1 zeroM).2
                (factor_hyper exOps (fun _ s => s) (fun _ => 0) dmEx9.n1 dmEx9.r 1 zeroM).1 i))
            (sfu_var3 dmEx9 (fun _ _ _ => 1) zeroM zeroM
              (factor_hyper exOps (fun _ s => s) (fun _ => 0) dmEx9.n1 dmEx9.r 1 zeroM).2 i)
            ((fun _ _ => 0 : ℕ → RVec) i) c
        else zeroM i c) := by
  refine ⟨by norm_num [dmEx9], ?_, ?_⟩
  · exact (c4_rowwise_entity_samplers exOps (fun _ s => s) (fun _ => 0) (fun _ _ => 0)
      dmEx9 (fun _ _ _ => 1) (fun _ _ _ => 1) zeroM zeroM zeroM 1).2.1 eyeR 0 0 0
      (by norm_num [dmEx9])
  · exact (c4_rowwise_entity_samplers exOps (fun _ s => s) (fun _ => 0) (fun _ _ => 0)
      dmEx9 (fun _ _ _ => 1) (fun _ _ _ => 1) zeroM zeroM zeroM 1).1

/-- C5: on every call the entity-factor hyperparameter update recomputes, from
the current factor matrix F with n rows and pseudo-count beta0 = 1, the
Wishart scale as the matrix inverse of I + scatter + (n/(n+1)) * outer mean,
uses degrees of freedom n + R, and draws the hyper-mean from the precision
sampler with mean (n/(n+1)) * Fbar and precision (n+1) * Lambda; and
sample_factor_u applies this update to its own current U argument, so nothing
is cached between calls. -/
theorem c5_hyper_update (ops : Ops) (wish : ℕ → RMat → RMat) (zh : RVec)
    (zr : ℕ → RVec) (n r : ℕ) (F : RMat) :
    ((factor_hyper ops wish zh n r 1 F).2
      = wish (n + r) (ops.minv (fun a b =>
          eyeR a b
          + (∑ i ∈ Finset.range n,
              (F i a - mean_rows n F a) * (F i b - mean_rows n F b))
          + ((n : ℚ) / ((n : ℚ) + 1)) * 1 * (mean_rows n F a * mean_rows n F b))))
    ∧ ((factor_hyper ops wish zh n r 1 F).1
      = mvnrnd_pre ops.chol r (fun s => ((n : ℚ) / ((n : ℚ) + 1)) * mean_rows n F s)
          (fun a b => ((n : ℚ) + 1) * (factor_hyper ops wish zh n r 1 F).2 a b) zh)
    ∧ (∀ dm : Dims, ∀ tauSp tauInd : RTen, ∀ U V X : RMat, ∀ i, i < dm.n1 →
        sample_factor_u ops wish zh zr dm tauSp tauInd U V X 1 i
          = mvnrnd_pre ops.chol dm.r
              (ops.lsolve
                (sfu_var3 dm tauInd V X (factor_hyper ops wish zh dm.n1 dm.r 1 U).2 i)
                (sfu_var4 dm tauSp V X (factor_hyper ops wish zh dm.n1 dm.r 1 U).2
                  (factor_hyper ops wish zh dm.n1 dm.r 1 U).1 i))
              (sfu_var3 dm tauInd V X (factor_hyper ops wish zh dm.n1 dm.r 1 U).2 i)
              (zr i)) := by
  refine ⟨rfl, rfl, ?_⟩
  intro dm tauSp tauInd U V X i hi
  funext c
  rw [sample_factor_u_rows ops wish zh zr dm tauSp tauInd U V X 1]
  simp only []
  rw [if_pos hi]

/-- Witness for C5: the per-call usage conjunct instantiated on the tiny
example (row 0 of a one-row factor matrix). -/
theorem c5_witness :
    (0 < dmEx9.n1)
    ∧ (sample_factor_u exOps (fun _ s => s) (fun _ => 0) (fun _ _ => 0) dmEx9
        (fun _ _ _ => 1) (fun _ _ _ => 1) zeroM zeroM zeroM 1 0
      = mvnrnd_pre exOps.chol dmEx9.r
          (exOps.lsolve
            (sfu_var3 dmEx9 (fun _ _ _ => 1) zeroM zeroM
              (factor_hyper exOps (fun _ s => s) (fun _ => 0) dmEx9.n1 dmEx9.r 1 zeroM).2 0)
            (sfu_var4 dmEx9 (fun _ _ _ => 1) zeroM zeroM
              (factor_hyper exOps (fun _ s => s) (fun _ => 0) dmEx9.n1 dmEx9.r 1 zeroM).2
              (factor_hyper exOps (fun _ s => s) (fun _ => 0) dmEx9.n1 dmEx9.r 1 zeroM).1 0))
          (sfu_var3 dmEx9 (fun _ _ _ => 1) zeroM zeroM
            (factor_hyper exOps (fun _ s => s) (fun _ => 0) dmEx9.n1 dmEx9.r 1 zeroM).2 0)
          ((fun _ _ => 0 : ℕ → RVec) 0)) := by
  refine ⟨by norm_num [dmEx9], ?_⟩
  exact (c5_hyper_update exOps (fun _ s => s) (fun _ => 0) (fun _ _ => 0)
    dmEx9.n1 dmEx9.r zeroM).2.2 dmEx9 (fun _ _ _ => 1) (fun _ _ _ => 1)
    zeroM zeroM zeroM 0 (by norm_num [dmEx9])

/-- Rows not yet reached by a sequential row-update loop still hold the
original values. -/
theorem foldl_seq_unwritten (rowf : RMat → ℕ → RVec) (X : RMat) :
    ∀ n m, n ≤ m → ∀ b,
      (List.range n).foldl (fun W u => updRow W u (rowf W u)) X m b = X m b := by
  intro n
  induction n with
  | zero =>
    intro m _ b
    rfl
  | succ k ih =>
    intro m h b
    rw [List.range_succ, List.foldl_append]
    simp only [List.foldl_cons, List.foldl_nil, updRow]
    rw [if_neg (by omega)]
    exact ih m (by omega) b

/-- Once a row has been written by the sequential loop, later steps leave it
unchanged. -/
theorem foldl_seq_stable (rowf : RMat → ℕ → RVec) (X : RMat) :
    ∀ m n n', m < n → n ≤ n' → ∀ b,
      (List.range n').foldl (fun W u => updRow W u (rowf W u)) X m b
        = (List.range n).foldl (fun W u => updRow W u (rowf W u)) X m b := by
  intro m n n' hm
  induction n' with
  | zero =>
    intro h b
    exact absurd hm (by omega)
  | succ k ih =>
    intro h b
    by_cases hk : n = k + 1
    · subst hk
      rfl
    · rw [List.range_succ, List.foldl_append]
      simp only [List.foldl_cons, List.foldl_nil, updRow]
      rw [if_neg (by omega)]
      exact ih (by omega) b

/-- Sequential-update characterization: row t of the finished loop is computed
by the loop body from the hybrid matrix whose rows below t are already the new
values and whose rows from t on are the original ones. -/
theorem foldl_seq_char (rowf : RMat → ℕ → RVec) (X : RMat) (d3 t : ℕ) (ht : t < d3) :
    (List.range d3).foldl (fun W u => updRow W u (rowf W u)) X t
      = rowf (fun m c =>
          if m < t then (List.range d3).foldl (fun W u => updRow W u (rowf W u)) X m c
          else X m c) t := by
  have hhyb : (List.range t).foldl (fun W u => updRow W u (rowf W u)) X
      = fun m c =>
          if m < t then (List.range d3).foldl (fun W u => updRow W u (rowf W u)) X m c
          else X m c := by
    funext m c
    by_cases hm : m < t
    · rw [if_pos hm, foldl_seq_stable rowf X m (m + 1) d3 (by omega) (by omega) c,
        foldl_seq_stable rowf X m (m + 1) t (by omega) (by omega) c]
    · rw [if_neg hm]
      exact foldl_seq_unwritten rowf X t m (by omega) c
  funext b
  rw [foldl_seq_stable rowf X t (t + 1) d3 (by omega) (by omega) b,
    List.range_succ, List.foldl_append]
  simp only [List.foldl_cons, List.foldl_nil, updRow]
  rw [if_pos trivial, hhyb]

/-- C3: sample_factor_x updates rows in increasing time order.  Row t of the
output is drawn with precision (per-step contribution + 2 Lambda_hyper) and
mean (X[1] + mu_hyper) / 2 directly at t = 0 (the linear contribution var4 is
unused there), with precision (contribution + Lambda_hyper) and solve target
(contribution + Lambda_hyper X[t-1]) at the last step, and with precision
(contribution + 2 Lambda_hyper) and target (contribution +
Lambda_hyper (X[t-1] + X[t+1])) at interior steps; in every branch X[t-1]
denotes the row already resampled in this call and X[t+1] the argument (the
previous sweep's row).  The accompanying conjuncts give the entry-level form
of the per-step contributions. -/
theorem c3_sample_factor_x_order (ops : Ops) (wish : ℕ → RMat → RMat) (zh : RVec)
    (zr : ℕ → RVec) (dm : Dims) (tauSp tauInd : RTen) (U V X : RMat) (beta0 : ℚ)
    (hn3 : 2 ≤ dm.n3) :
    (∀ t, t < dm.n3 →
      sample_factor_x ops wish zh zr dm tauSp tauInd U V X beta0 t
        = if t = 0 then
            mvnrnd_pre ops.chol dm.r
              (fun s => (X (t + 1) s + (sfx_hyper ops wish zh dm beta0 X).1 s) / 2)
              (fun a b => sfx_var3 dm tauInd U V t a b
                + 2 * (sfx_hyper ops wish zh dm beta0 X).2 a b) (zr t)
          else if t = dm.n3 - 1 then
            mvnrnd_pre ops.chol dm.r
              (ops.lsolve
                (fun a b => sfx_var3 dm tauInd U V t a b
                  + (sfx_hyper ops wish zh dm beta0 X).2 a b)
                (fun s => sfx_var4 dm tauSp U V t s
                  + mulVecR dm.r (sfx_hyper ops wish zh dm beta0 X).2
                      (sample_factor_x ops wish zh zr dm tauSp tauInd U V X beta0 (t - 1)) s))
              (fun a b => sfx_var3 dm tauInd U V t a b
                + (sfx_hyper ops wish zh dm beta0 X).2 a b) (zr t)
          else
            mvnrnd_pre ops.chol dm.r
              (ops.lsolve
                (fun a b => sfx_var3 dm tauInd U V t a b
                  + 2 * (sfx_hyper ops wish zh dm beta0 X).2 a b)
                (fun s => sfx_var4 dm tauSp U V t s
                  + mulVecR dm.r (sfx_hyper ops wish zh dm beta0 X).2
                      (fun q =>
                        sample_factor_x ops wish zh zr dm tauSp tauInd U V X beta0 (t - 1) q
                          + X (t + 1) q) s))
              (fun a b => sfx_var3 dm tauInd U V t a b
                + 2 * (sfx_hyper ops wish zh dm beta0 X).2 a b) (zr t))
    ∧ (∀ t a b, b < dm.r → sfx_var3 dm tauInd U V t a b
        = ∑ j ∈ Finset.range dm.n2, ∑ i ∈ Finset.range dm.n1,
            (V j a * U i a) * (V j b * U i b) * tauInd i j t)
    ∧ (∀ t s, sfx_var4 dm tauSp U V t s
        = ∑ j ∈ Finset.range dm.n2, ∑ i ∈ Finset.range dm.n1,
            V j s * U i s * tauSp i j t) := by
  refine ⟨?_, ?_, ?_⟩
  · intro t ht
    have hY : sample_factor_x ops wish zh zr dm tauSp tauInd U V X beta0
        = List.foldl (fun W u => updRow W u
            (sfx_row ops dm (sfx_hyper ops wish zh dm beta0 X).2
              (sfx_hyper ops wish zh dm beta0 X).1
              (sfx_var3 dm tauInd U V) (sfx_var4 dm tauSp U V) zr W u))
          X (List.range dm.n3) := by
      simp only [sample_factor_x]
    rw [hY, foldl_seq_char _ X dm.n3 t ht]
    simp only [sfx_row]
    by_cases ht0 : t = 0
    · subst ht0
      rw [if_pos rfl, if_pos rfl]
      norm_num
    · rw [if_neg ht0, if_neg ht0]
      by_cases htl : t = dm.n3 - 1
      · rw [if_pos htl, if_pos htl]
        have h1 : t - 1 < t := by omega
        simp [h1]
      · rw [if_neg htl, if_neg htl]
        have h1 : t - 1 < t := by omega
        have h2 : ¬ t + 1 < t := by omega
        simp [h1, h2]
  · intro t a b hb
    exact sfx_var3_entry dm tauInd U V t a b hb
  · intro t s
    exact sfx_var4_entry dm tauSp U V t s

/-- Witness for C3: the characterization instantiated at the last time step of
the 1 x 1 x 2 example. -/
theorem c3_witness :
    (2 ≤ dmEx9.n3) ∧ (1 < dmEx9.n3)
    ∧ (sample_factor_x exOps (fun _ s => s) (fun _ => 0) (fun _ _ => 0) dmEx9
        (fun _ _ _ => 1) (fun _ _ _ => 1) zeroM zeroM zeroM 1 1
      = if (1 : ℕ) = 0 then
          mvnrnd_pre exOps.chol dmEx9.r
            (fun s => (zeroM (1 + 1) s
              + (sfx_hyper exOps (fun _ s => s) (fun _ => 0) dmEx9 1 zeroM).1 s) / 2)
            (fun a b => sfx_var3 dmEx9 (fun _ _ _ => 1) zeroM zeroM 1 a b
              + 2 * (sfx_hyper exOps (fun _ s => s) (fun _ => 0) dmEx9 1 zeroM).2 a b)
            ((fun _ _ => 0 : ℕ → RVec) 1)
        else if (1 : ℕ) = dmEx9.n3 - 1 then
          mvnrnd_pre exOps.chol dmEx9.r
            (exOps.lsolve
              (fun a b => sfx_var3 dmEx9 (fun _ _ _ => 1) zeroM zeroM 1 a b
                + (sfx_hyper exOps (fun _ s => s) (fun _ => 0) dmEx9 1 zeroM).2 a b)
              (fun s => sfx_var4 dmEx9 (fun _ _ _ => 1) zeroM zeroM 1 s
                + mulVecR dmEx9.r (sfx_hyper exOps (fun _ s => s) (fun _ => 0) dmEx9 1 zeroM).2
                    (sample_factor_x exOps (fun _ s => s) (fun _ => 0) (fun _ _ => 0) dmEx9
                      (fun _ _ _ => 1) (fun _ _ _ => 1) zeroM zeroM zeroM 1 (1 - 1)) s))
            (fun a b => sfx_var3 dmEx9 (fun _ _ _ => 1) zeroM zeroM 1 a b
              + (sfx_hyper exOps (fun _ s => s) (fun _ => 0) dmEx9 1 zeroM).2 a b)
            ((fun _ _ => 0 : ℕ → RVec) 1)
        else
          mvnrnd_pre exOps.chol dmEx9.r
            (exOps.lsolve
              (fun a b => sfx_var3 dmEx9 (fun _ _ _ => 1) zeroM zeroM 1 a b
                + 2 * (sfx_hyper exOps (fun _ s => s) (fun _ => 0) dmEx9 1 zeroM).2 a b)
              (fun s => sfx_var4 dmEx9 (fun _ _ _ => 1) zeroM zeroM 1 s
                + mulVecR dmEx9.r (sfx_hyper exOps (fun _ s => s) (fun _ => 0) dmEx9 1 zeroM).2
                    (fun q => sample_factor_x exOps (fun _ s => s) (fun _ => 0) (fun _ _ => 0)
                        dmEx9 (fun _ _ _ => 1) (fun _ _ _ => 1) zeroM zeroM zeroM 1 (1 - 1) q
                      + zeroM (1 + 1) q) s))
            (fun a b => sfx_var3 dmEx9 (fun _ _ _ => 1) zeroM zeroM 1 a b
              + 2 * (sfx_hyper exOps (fun _ s => s) (fun _ => 0) dmEx9 1 zeroM).2 a b)
            ((fun _ _ => 0 : ℕ → RVec) 1)) := by
  refine ⟨by norm_num [dmEx9], by norm_num [dmEx9], ?_⟩
  exact (c3_sample_factor_x_order exOps (fun _ s => s) (fun _ => 0) (fun _ _ => 0) dmEx9
    (fun _ _ _ => 1) (fun _ _ _ => 1) zeroM zeroM zeroM 1 (by norm_num [dmEx9])).1 1
    (by norm_num [dmEx9])

/-- The checked loop body succeeds (and agrees with the unchecked body) at
every in-range time step once d3 is at least 2. -/
theorem sfx_row_chk_ok (ops : Ops) (dm : Dims) (lam : RMat) (mu : RVec)
    (var3 : ℕ → RMat) (var4 : ℕ → RVec) (zr : ℕ → RVec) (W : RMat) (t : ℕ)
    (ht : t < dm.n3) (hn : 2 ≤ dm.n3) :
    sfx_row_chk ops dm lam mu var3 var4 zr W t
      = some (sfx_row ops dm lam mu var3 var4 zr W t) := by
  unfold sfx_row_chk
  by_cases ht0 : t = 0
  · rw [if_pos ht0, if_pos (by omega)]
  · rw [if_neg ht0]
    by_cases htl : t = dm.n3 - 1
    · rw [if_pos htl, if_pos (by omega)]
    · rw [if_neg htl, if_pos ⟨by omega, by omega⟩]

/-- An Option-threaded row-update fold whose body always succeeds equals the
plain fold. -/
theorem foldl_chk (rchk : RMat → ℕ → Option RVec) (rf : RMat → ℕ → RVec) :
    ∀ l : List ℕ, (∀ t ∈ l, ∀ W, rchk W t = some (rf W t)) → ∀ W : RMat,
      l.foldl (fun ow t => ow.bind (fun W2 => (rchk W2 t).map (updRow W2 t))) (some W)
        = some (l.foldl (fun W2 t => updRow W2 t (rf W2 t)) W) := by
  intro l
  induction l with
  | nil =>
    intro _ W
    rfl
  | cons a l ih =>
    intro h W
    have h1 : ((some W).bind (fun W2 => (rchk W2 a).map (updRow W2 a)))
        = some (updRow W a (rf W a)) := by
      show (rchk W a).map (updRow W a) = _
      rw [h a (by simp) W]
      rfl
    simp only [List.foldl_cons, h1]
    exact ih (fun t ht W2 => h t (by simp [ht]) W2) (updRow W a (rf W a))

/-- C10: sample_factor_x needs at least two time slices.  The t = 0 branch
reads X[1, :] unconditionally, so the bounds-checked model fails (the numpy
IndexError) whenever d3 = 1; for every d3 at least 2 all row accesses are in
bounds and the checked model returns exactly the unchecked sampler's result. -/
theorem c10_sample_factor_x_bounds (ops : Ops) (wish : ℕ → RMat → RMat)
    (zh : RVec) (zr : ℕ → RVec) (dm : Dims) (tauSp tauInd : RTen) (U V X : RMat)
    (beta0 : ℚ) :
    (dm.n3 = 1 →
      sample_factor_x_chk ops wish zh zr dm tauSp tauInd U V X beta0 = none)
    ∧ (2 ≤ dm.n3 →
      sample_factor_x_chk ops wish zh zr dm tauSp tauInd U V X beta0
        = some (sample_factor_x ops wish zh zr dm tauSp tauInd U V X beta0)) := by
  constructor
  · intro h1
    simp only [sample_factor_x_chk, sfx_row_chk, h1]
    rfl
  · intro h2
    have hstep : ∀ t ∈ List.range dm.n3, ∀ W,
        sfx_row_chk ops dm (sfx_hyper ops wish zh dm beta0 X).2
          (sfx_hyper ops wish zh dm beta0 X).1
          (sfx_var3 dm tauInd U V) (sfx_var4 dm tauSp U V) zr W t
          = some (sfx_row ops dm (sfx_hyper ops wish zh dm beta0 X).2
              (sfx_hyper ops wish zh dm beta0 X).1
              (sfx_var3 dm tauInd U V) (sfx_var4 dm tauSp U V) zr W t) := by
      intro t htl W
      exact sfx_row_chk_ok ops dm _ _ _ _ zr W t (List.mem_range.mp htl) h2
    simp only [sample_factor_x_chk, sample_factor_x]
    rw [if_pos (by omega : 0 < dm.n3)]
    exact foldl_chk _ _ (List.range dm.n3) hstep X

/-- Witness for C10: the checked sampler fails on a single time slice and
succeeds with the unchecked result on two slices. -/
theorem c10_witness :
    (sample_factor_x_chk exOps (fun _ s => s) (fun _ => 0) (fun _ _ => 0)
      (⟨1, 1, 1, 1⟩ : Dims) (fun _ _ _ => 1) (fun _ _ _ => 1) zeroM zeroM zeroM 1 = none)
    ∧ (2 ≤ dmEx9.n3)
    ∧ (sample_factor_x_chk exOps (fun _ s => s) (fun _ => 0) (fun _ _ => 0) dmEx9
        (fun _ _ _ => 1) (fun _ _ _ => 1) zeroM zeroM zeroM 1
      = some (sample_factor_x exOps (fun _ s => s) (fun _ => 0) (fun _ _ => 0) dmEx9
          (fun _ _ _ => 1) (fun _ _ _ => 1) zeroM zeroM zeroM 1)) := by
  refine ⟨?_, by norm_num [dmEx9], ?_⟩
  · exact (c10_sample_factor_x_bounds exOps (fun _ s => s) (fun _ => 0) (fun _ _ => 0)
      (⟨1, 1, 1, 1⟩ : Dims) (fun _ _ _ => 1) (fun _ _ _ => 1) zeroM zeroM zeroM 1).1 rfl
  · exact (c10_sample_factor_x_bounds exOps (fun _ s => s) (fun _ => 0) (fun _ _ => 0)
      dmEx9 (fun _ _ _ => 1) (fun _ _ _ => 1) zeroM zeroM zeroM 1).2 (by norm_num [dmEx9])

/-- Unfolding one sweep of the chain. -/
theorem bchain_succ (ops : Ops) (rands : ℕ → IterRand) (dm : Dims) (burn : ℕ)
    (sp : RTen) (ind : ℕ → ℕ → ℕ → Bool) (pt : List Pos3) (s0 : BState) (n : ℕ) :
    bchain ops rands dm burn sp ind pt s0 (n + 1)
      = bptfStep ops (rands n) dm burn sp ind pt n
          (bchain ops rands dm burn sp ind pt s0 n) := by
  unfold bchain
  rw [List.range_succ, List.foldl_append]
  simp only [List.foldl_cons, List.foldl_nil]

/-- The reconstruction accumulated during sweep n is the rank contraction of
the state reached after n + 1 sweeps. -/
theorem stepHat_recon (ops : Ops) (rands : ℕ → IterRand) (dm : Dims) (burn : ℕ)
    (sp : RTen) (ind : ℕ → ℕ → ℕ → Bool) (pt : List Pos3) (s0 : BState) (n : ℕ) :
    stepHat ops (rands n) dm sp ind
        (bchain ops rands dm burn sp ind pt s0 n).U
        (bchain ops rands dm burn sp ind pt s0 n).V
        (bchain ops rands dm burn sp ind pt s0 n).X
        (bchain ops rands dm burn sp ind pt s0 n).tau
      = recon_at ops rands dm burn sp ind pt s0 (n + 1) := by
  funext i j k
  unfold recon_at
  rw [bchain_succ]
  simp only [bptfStep, stepHat]

/-- The posterior-mean accumulator after n sweeps is the sum of the per-sweep
reconstructions over exactly the sweeps it with burn < it + 1. -/
theorem bchain_hatPlus (ops : Ops) (rands : ℕ → IterRand) (dm : Dims) (burn : ℕ)
    (sp : RTen) (ind : ℕ → ℕ → ℕ → Bool) (pt : List Pos3) (U0 V0 X0 : RMat) (m : ℕ) :
    ∀ n, (bchain ops rands dm burn sp ind pt (init_state U0 V0 X0 m) n).hatPlus
      = fun i j k =>
          ∑ it ∈ (Finset.range n).filter (fun it => burn < it + 1),
            recon_at ops rands dm burn sp ind pt (init_state U0 V0 X0 m) (it + 1) i j k := by
  intro n
  induction n with
  | zero =>
    funext i j k
    simp [bchain, init_state]
  | succ q ih =>
    rw [bchain_succ]
    simp only [bptfStep]
    by_cases hb : burn < q + 1
    · rw [if_pos hb]
      funext i j k
      rw [ih]
      rw [Finset.range_succ, Finset.filter_insert, if_pos hb,
        Finset.sum_insert (by simp)]
      have hhat := stepHat_recon ops rands dm burn sp ind pt (init_state U0 V0 X0 m) q
      rw [hhat]
      ring
    · rw [if_neg hb]
      funext i j k
      rw [ih]
      rw [Finset.range_succ, Finset.filter_insert, if_neg hb]

/-- C1: for burn_iter and gibbs_iter at least 1, the tensor returned by BPTF
is the entry-wise sum of the per-sweep reconstructions over exactly the last
gibbs_iter sweeps (it in [burn, burn + gibbs)), divided by gibbs_iter; burn-in
sweeps contribute nothing to the accumulator. -/
theorem c1_bptf_posterior_mean (ops : Ops) (rands : ℕ → IterRand) (dm : Dims)
    (dense sparse : NTen) (initU initV initX : RMat) (burn gibbs : ℕ)
    (hb : 1 ≤ burn) (hg : 1 ≤ gibbs) :
    ∀ i j k,
      (BPTF ops rands dm dense sparse initU initV initX burn gibbs).tensor_hat i j k
        = (∑ it ∈ Finset.Ico burn (burn + gibbs),
            recon_at ops rands dm burn (preprocess dm dense sparse).sparse_q
              (preprocess dm dense sparse).ind (preprocess dm dense sparse).posTest
              (init_state initU initV initX (preprocess dm dense sparse).posTest.length)
              (it + 1) i j k) / (gibbs : ℚ) := by
  intro i j k
  simp only [BPTF]
  rw [bchain_hatPlus]
  have hfil : (Finset.range (burn + gibbs)).filter (fun it => burn < it + 1)
      = Finset.Ico burn (burn + gibbs) := by
    ext x
    simp only [Finset.mem_filter, Finset.mem_range, Finset.mem_Ico]
    omega
  rw [hfil]

/-- Witness for C1: the characterization at burn = gibbs = 1 on the tiny
concrete run. -/
theorem c1_witness :
    (1 ≤ 1)
    ∧ ((BPTF exOps (fun _ => exRand) dmEx9 exOnes exOnes zeroM zeroM zeroM 1 1).tensor_hat 0 0 0
      = (∑ it ∈ Finset.Ico 1 (1 + 1),
          recon_at exOps (fun _ => exRand) dmEx9 1
            (preprocess dmEx9 exOnes exOnes).sparse_q
            (preprocess dmEx9 exOnes exOnes).ind (preprocess dmEx9 exOnes exOnes).posTest
            (init_state zeroM zeroM zeroM (preprocess dmEx9 exOnes exOnes).posTest.length)
            (it + 1) 0 0 0) / ((1 : ℕ) : ℚ)) :=
  ⟨le_refl 1,
    c1_bptf_posterior_mean exOps (fun _ => exRand) dmEx9 exOnes exOnes zeroM zeroM zeroM 1 1
      (le_refl 1) (le_refl 1) 0 0 0⟩

/-- The chain components that feed the returned tensor (U, V, X, tau and the
posterior-mean accumulator) do not depend on the held-out position list or on
the length of the diagnostic accumulator; only tempHat does. -/
theorem bchain_core_indep (ops : Ops) (rands : ℕ → IterRand) (dm : Dims) (burn : ℕ)
    (sp : RTen) (ind : ℕ → ℕ → ℕ → Bool) (pt1 pt2 : List Pos3)
    (U0 V0 X0 : RMat) (m1 m2 : ℕ) :
    ∀ n,
      ((bchain ops rands dm burn sp ind pt1 (init_state U0 V0 X0 m1) n).U
        = (bchain ops rands dm burn sp ind pt2 (init_state U0 V0 X0 m2) n).U)
      ∧ ((bchain ops rands dm burn sp ind pt1 (init_state U0 V0 X0 m1) n).V
        = (bchain ops rands dm burn sp ind pt2 (init_state U0 V0 X0 m2) n).V)
      ∧ ((bchain ops rands dm burn sp ind pt1 (init_state U0 V0 X0 m1) n).X
        = (bchain ops rands dm burn sp ind pt2 (init_state U0 V0 X0 m2) n).X)
      ∧ ((bchain ops rands dm burn sp ind pt1 (init_state U0 V0 X0 m1) n).tau
        = (bchain ops rands dm burn sp ind pt2 (init_state U0 V0 X0 m2) n).tau)
      ∧ ((bchain ops rands dm burn sp ind pt1 (init_state U0 V0 X0 m1) n).hatPlus
        = (bchain ops rands dm burn sp ind pt2 (init_state U0 V0 X0 m2) n).hatPlus) := by
  intro n
  induction n with
  | zero => exact ⟨rfl, rfl, rfl, rfl, rfl⟩
  | succ q ih =>
    obtain ⟨hU, hV, hX, htau, hplus⟩ := ih
    rw [bchain_succ, bchain_succ]
    simp only [bptfStep]
    rw [hU, hV, hX, htau, hplus]
    exact ⟨rfl, rfl, rfl, rfl, rfl⟩

/-- C8: two-run noninterference in the reference tensor.  For a fixed sparse
tensor, init factors, sweep counts and random stream, changing the dense
(reference) tensor changes neither the returned posterior-mean tensor nor the
final factor matrices or noise precision: the dense tensor feeds only the
held-out position list used by the printed diagnostics. -/
theorem c8_dense_noninterference (ops : Ops) (rands : ℕ → IterRand) (dm : Dims)
    (dense1 dense2 sparse : NTen) (initU initV initX : RMat) (burn gibbs : ℕ) :
    ((BPTF ops rands dm dense1 sparse initU initV initX burn gibbs).tensor_hat
      = (BPTF ops rands dm dense2 sparse initU initV initX burn gibbs).tensor_hat)
    ∧ ((BPTF ops rands dm dense1 sparse initU initV initX burn gibbs).U
      = (BPTF ops rands dm dense2 sparse initU initV initX burn gibbs).U)
    ∧ ((BPTF ops rands dm dense1 sparse initU initV initX burn gibbs).V
      = (BPTF ops rands dm dense2 sparse initU initV initX burn gibbs).V)
    ∧ ((BPTF ops rands dm dense1 sparse initU initV initX burn gibbs).X
      = (BPTF ops rands dm dense2 sparse initU initV initX burn gibbs).X)
    ∧ ((BPTF ops rands dm dense1 sparse initU initV initX burn gibbs).tau
      = (BPTF ops rands dm dense2 sparse initU initV initX burn gibbs).tau) := by
  have hind : (preprocess dm dense2 sparse).ind = (preprocess dm dense1 sparse).ind := by
    unfold preprocess
    by_cases h : hasNaN dm sparse = false
    · rw [if_pos h, if_pos h]
    · rw [if_neg h, if_neg h]
  have hsq : (preprocess dm dense2 sparse).sparse_q
      = (preprocess dm dense1 sparse).sparse_q := by
    unfold preprocess
    by_cases h : hasNaN dm sparse = false
    · rw [if_pos h, if_pos h]
    · rw [if_neg h, if_neg h]
  simp only [BPTF]
  rw [hind, hsq]
  obtain ⟨hU, hV, hX, htau, hplus⟩ :=
    bchain_core_indep ops rands dm burn (preprocess dm dense1 sparse).sparse_q
      (preprocess dm dense1 sparse).ind
      (preprocess dm dense1 sparse).posTest (preprocess dm dense2 sparse).posTest
      initU initV initX
      (preprocess dm dense1 sparse).posTest.length
      (preprocess dm dense2 sparse).posTest.length (burn + gibbs)
  refine ⟨?_, hU, hV, hX, htau⟩
  funext i j k
  rw [hplus]

/-- C9: BPTF's in-place effects, modelled by the returned final array
contents.  After the run, the factor arrays hold the values written by the
last sweep's samplers (not the initial values), and every in-range NaN entry
of the sparse tensor has been overwritten with 0 while observed entries are
untouched. -/
theorem c9_in_place_state (ops : Ops) (rands : ℕ → IterRand) (dm : Dims)
    (dense sparse : NTen) (initU initV initX : RMat) (burn gibbs : ℕ)
    (hbg : 1 ≤ burn + gibbs) :
    ((BPTF ops rands dm dense sparse initU initV initX burn gibbs).U
      = stepU ops (rands (burn + gibbs - 1)) dm (preprocess dm dense sparse).sparse_q
          (preprocess dm dense sparse).ind
          (bchain ops rands dm burn (preprocess dm dense sparse).sparse_q
            (preprocess dm dense sparse).ind (preprocess dm dense sparse).posTest
            (init_state initU initV initX (preprocess dm dense sparse).posTest.length)
            (burn + gibbs - 1)).U
          (bchain ops rands dm burn (preprocess dm dense sparse).sparse_q
            (preprocess dm dense sparse).ind (preprocess dm dense sparse).posTest
            (init_state initU initV initX (preprocess dm dense sparse).posTest.length)
            (burn + gibbs - 1)).V
          (bchain ops rands dm burn (preprocess dm dense sparse).sparse_q
            (preprocess dm dense sparse).ind (preprocess dm dense sparse).posTest
            (init_state initU initV initX (preprocess dm dense sparse).posTest.length)
            (burn + gibbs - 1)).X
          (bchain ops rands dm burn (preprocess dm dense sparse).sparse_q
            (preprocess dm dense sparse).ind (preprocess dm dense sparse).posTest
            (init_state initU initV initX (preprocess dm dense sparse).posTest.length)
            (burn + gibbs - 1)).tau)
    ∧ ((BPTF ops rands dm dense sparse initU initV initX burn gibbs).V
      = stepV ops (rands (burn + gibbs - 1)) dm (preprocess dm dense sparse).sparse_q
          (preprocess dm dense sparse).ind
          (bchain ops rands dm burn (preprocess dm dense sparse).sparse_q
            (preprocess dm dense sparse).ind (preprocess dm dense sparse).posTest
            (init_state initU initV initX (preprocess dm dense sparse).posTest.length)
            (burn + gibbs - 1)).U
          (bchain ops rands dm burn (preprocess dm dense sparse).sparse_q
            (preprocess dm dense sparse).ind (preprocess dm dense sparse).posTest
            (init_state initU initV initX (preprocess dm dense sparse).posTest.length)
            (burn + gibbs - 1)).V
          (bchain ops rands dm burn (preprocess dm dense sparse).sparse_q
            (preprocess dm dense sparse).ind (preprocess dm dense sparse).posTest
            (init_state initU initV initX (preprocess dm dense sparse).posTest.length)
            (burn + gibbs - 1)).X
          (bchain ops rands dm burn (preprocess dm dense sparse).sparse_q
            (preprocess dm dense sparse).ind (preprocess dm dense sparse).posTest
            (init_state initU initV initX (preprocess dm dense sparse).posTest.length)
            (burn + gibbs - 1)).tau)
    ∧ ((BPTF ops rands dm dense sparse initU initV initX burn gibbs).X
      = stepX ops (rands (burn + gibbs - 1)) dm (preprocess dm dense sparse).sparse_q
          (preprocess dm dense sparse).ind
          (bchain ops rands dm burn (preprocess dm dense sparse).sparse_q
            (preprocess dm dense sparse).ind (preprocess dm dense sparse).posTest
            (init_state initU initV initX (preprocess dm dense sparse).posTest.length)
            (burn + gibbs - 1)).U
          (bchain ops rands dm burn (preprocess dm dense sparse).sparse_q
            (preprocess dm dense sparse).ind (preprocess dm dense sparse).posTest
            (init_state initU initV initX (preprocess dm dense sparse).posTest.length)
            (burn + gibbs - 1)).V
          (bchain ops rands dm burn (preprocess dm dense sparse).sparse_q
            (preprocess dm dense sparse).ind (preprocess dm dense sparse).posTest
            (init_state initU initV initX (preprocess dm dense sparse).posTest.length)
            (burn + gibbs - 1)).X
          (bchain ops rands dm burn (preprocess dm dense sparse).sparse_q
            (preprocess dm dense sparse).ind (preprocess dm dense sparse).posTest
            (init_state initU initV initX (preprocess dm dense sparse).posTest.length)
            (burn + gibbs - 1)).tau)
    ∧ (∀ i j k, i < dm.n1 → j < dm.n2 → k < dm.n3 →
        (BPTF ops rands dm dense sparse initU initV initX burn gibbs).sparse_caller i j k
          = if (sparse i j k).isNone then some 0 else sparse i j k) := by
  obtain ⟨n, hn⟩ : ∃ n, burn + gibbs = n + 1 := ⟨burn + gibbs - 1, by omega⟩
  simp only [BPTF]
  rw [hn]
  simp only [Nat.add_sub_cancel]
  rw [bchain_succ]
  refine ⟨rfl, rfl, rfl, ?_⟩
  intro i j k hi hj hk
  unfold preprocess
  by_cases h : hasNaN dm sparse = false
  · rw [if_pos h]
    have hnn : sparse i j k ≠ none := by
      intro he
      have htrue : hasNaN dm sparse = true := by
        unfold hasNaN
        exact decide_eq_true ⟨i, hi, j, hj, k, hk, he⟩
      rw [h] at htrue
      exact Bool.false_ne_true htrue
    rcases ho : sparse i j k with _ | v
    · exact absurd ho hnn
    · simp [ho]
  · rw [if_neg h]
    rcases ho : sparse i j k with _ | v
    · simp [ho]
    · simp [ho]

/-- Witness for C9: a concrete one-sweep run on the 2 x 2 x 1 example in which
the NaN entry at position (0, 1, 0) of the caller's sparse array has been
zero-filled. -/
theorem c9_witness :
    (1 ≤ 0 + 1)
    ∧ ((BPTF exOps (fun _ => exRand) dmEx2 exDense2 exSparse2 zeroM zeroM zeroM 0 1).sparse_caller
        0 1 0
      = if (exSparse2 0 1 0).isNone then some 0 else exSparse2 0 1 0) :=
  ⟨le_refl 1,
    (c9_in_place_state exOps (fun _ => exRand) dmEx2 exDense2 exSparse2 zeroM zeroM zeroM 0 1
      (le_refl 1)).2.2.2 0 1 0 (by norm_num [dmEx2]) (by norm_num [dmEx2])
      (by norm_num [dmEx2])⟩

/-- Membership in the np.where position list. -/
theorem posWhere_mem (dm : Dims) (p : ℕ → ℕ → ℕ → Bool) (x : Pos3) :
    x ∈ posWhere dm p ↔
      x.1 < dm.n1 ∧ x.2.1 < dm.n2 ∧ x.2.2 < dm.n3 ∧ p x.1 x.2.1 x.2.2 = true := by
  obtain ⟨i, j, k⟩ := x
  simp only [posWhere, List.mem_flatMap, List.mem_map, List.mem_filter, List.mem_range,
    Prod.mk.injEq]
  aesop

/-- C2 counterexample: on the spec's own example dense = [[1, 0], [2, 3]],
sparse = [[1, NaN], [2, 0]] the held-out list computed by the code is empty
(dense is 0 at the NaN position), not {(0, 1)} as the claim states. -/
theorem c2_heldout_counterexample :
    (preprocess dmEx2 exDense2 exSparse2).posTest = []
    ∧ (preprocess dmEx2 exDense2 exSparse2).posTest ≠ [((0 : ℕ), (1 : ℕ), (0 : ℕ))] := by
  constructor
  · decide
  · decide

/-- C2 (amended): the observation mask is the non-NaN set when the sparse
tensor contains a NaN and the nonzero set otherwise; the held-out positions
are exactly the in-range positions where the dense tensor is nonzero and the
sparse entry is missing (NaN, resp. exactly zero); the samplers then read the
zero-filled tensor.  On the spec's example the held-out set is empty, because
dense is 0 at the unique NaN position (0, 1) and position (1, 1) is not NaN. -/
theorem c2_heldout_amended :
    (∀ dm : Dims, ∀ dense sparse : NTen,
      (∀ i j k, (preprocess dm dense sparse).ind i j k
        = if hasNaN dm sparse then (sparse i j k).isSome else neZeroO (sparse i j k))
      ∧ (∀ x : Pos3, x ∈ (preprocess dm dense sparse).posTest ↔
          (x.1 < dm.n1 ∧ x.2.1 < dm.n2 ∧ x.2.2 < dm.n3
            ∧ neZeroO (dense x.1 x.2.1 x.2.2) = true
            ∧ (if hasNaN dm sparse then sparse x.1 x.2.1 x.2.2 = none
               else eqZeroO (sparse x.1 x.2.1 x.2.2) = true)))
      ∧ (∀ i j k, (preprocess dm dense sparse).sparse_q i j k = (sparse i j k).getD 0))
    ∧ ((preprocess dmEx2 exDense2 exSparse2).posTest = []) := by
  constructor
  · intro dm dense sparse
    by_cases h : hasNaN dm sparse = false
    · have hind : (preprocess dm dense sparse).ind
          = fun i j k => neZeroO (sparse i j k) := by
        unfold preprocess
        rw [if_pos h]
      have hpt : (preprocess dm dense sparse).posTest
          = posWhere dm (fun i j k => neZeroO (dense i j k) && eqZeroO (sparse i j k)) := by
        unfold preprocess
        rw [if_pos h]
      have hsq : (preprocess dm dense sparse).sparse_q
          = fun i j k => (sparse i j k).getD 0 := by
        unfold preprocess
        rw [if_pos h]
      refine ⟨?_, ?_, ?_⟩
      · intro i j k
        rw [hind, if_neg (by simp [h])]
      · intro x
        rw [hpt, posWhere_mem, if_neg (by simp [h])]
        simp only [Bool.and_eq_true]
      · intro i j k
        rw [hsq]
    · have hind : (preprocess dm dense sparse).ind
          = fun i j k => (sparse i j k).isSome := by
        unfold preprocess
        rw [if_neg h]
      have hpt : (preprocess dm dense sparse).posTest
          = posWhere dm (fun i j k => neZeroO (dense i j k) && (sparse i j k).isNone) := by
        unfold preprocess
        rw [if_neg h]
      have hsq : (preprocess dm dense sparse).sparse_q
          = fun i j k => (sparse i j k).getD 0 := by
        unfold preprocess
        rw [if_neg h]
      refine ⟨?_, ?_, ?_⟩
      · intro i j k
        rw [hind, if_pos (by simpa using h)]
      · intro x
        rw [hpt, posWhere_mem, if_pos (by simpa using h)]
        simp only [Bool.and_eq_true, Option.isNone_iff_eq_none]
      · intro i j k
        rw [hsq]
  · decide

/-- C7 counterexample: with dense and sparse sharing the shape (2, 2, 2) and an
init factor matrix whose dimensions (5 rows, 3 columns) match neither the
tensor dimension d1 = 2 nor the other factors' rank 2, the pre-loop phase of
BPTF completes normally (no abort before the first Gibbs sweep), so the
malformed configuration is not detected before the loop as the claim states. -/
theorem c7_validation_counterexample :
    (exUbad.rows ≠ exSparse7.d1 ∧ exUbad.cols ≠ exV7.cols ∧ exUbad.cols ≠ exX7.cols)
    ∧ (bptfPre exDense7 exSparse7 exUbad exV7 exX7).isSome = true := by
  refine ⟨⟨by decide, by decide, by decide⟩, by decide⟩

/-- C7 (amended): BPTF performs no explicit input validation.  The pre-loop
phase is entirely independent of the init argument, so mismatched init factor
dimensions cannot abort before the loop (they can only surface once the first
sweep begins).  A dense/sparse shape mismatch may abort before the loop
incidentally rather than through a deliberate check: a non-broadcastable
mismatch fails at the held-out mask construction (dense (3,2,2) against
sparse (2,2,2)), and a broadcastable mismatch can fail at the bounds-checked
fancy indexing dense_tensor[pos_test] (dense [[[5]]] of shape (1,1,1) against
sparse [[[1,0]]] of shape (1,1,2), whose broadcast mask puts position
(0,0,1) outside the dense tensor). -/
theorem c7_no_init_validation :
    (∀ dense sparse : STen, ∀ iU iV iX iU2 iV2 iX2 : SMat,
      bptfPre dense sparse iU iV iX = bptfPre dense sparse iU2 iV2 iX2)
    ∧ ((bptfPre exDense7bad exSparse7 exUbad exV7 exX7).isSome = false)
    ∧ ((bptfPre exDense7bc exSparse7bc exUbad exV7 exX7).isSome = false) := by
  refine ⟨fun _ _ _ _ _ _ _ _ => rfl, by decide, by decide⟩
